import Mathlib

/-!
Verification development for a graph-rewriting search engine with a
self-tuning rule layer (property graph kernel, rule compiler, beam search,
provenance miner, guard synthesizer).

The Python source is shallowly embedded: Python dicts become association
lists with insertion-order update semantics, Python floats become exact
rationals (`Rat`), exceptions become `Except`, and Python's stable
`list.sort` / `sorted` become a stable insertion sort over `Bool`-valued
orders.  Every definition mirrors one function of the source; modelling
choices are recorded in the doc comments.
-/

namespace Gresiop

/-! ## String order (Python compares strings by code points, lexicographically) -/

/-- Lexicographic order on character lists by code point, non-strict. -/
def charListLe : List Char → List Char → Bool
  | [], _ => true
  | _ :: _, [] => false
  | a :: as, b :: bs =>
      a.toNat < b.toNat || (a.toNat == b.toNat && charListLe as bs)

/-- Lexicographic order on character lists by code point, strict. -/
def charListLt : List Char → List Char → Bool
  | [], [] => false
  | [], _ :: _ => true
  | _ :: _, [] => false
  | a :: as, b :: bs =>
      a.toNat < b.toNat || (a.toNat == b.toNat && charListLt as bs)

/-- Python string `<=` (code-point lexicographic). -/
def strLe (a b : String) : Bool := charListLe a.data b.data

/-- Python string `<` (code-point lexicographic). -/
def strLt (a b : String) : Bool := charListLt a.data b.data

theorem charListLe_refl (l : List Char) : charListLe l l = true := by
  induction l with
  | nil => rfl
  | cons a t ih => simp [charListLe, ih]

theorem charListLe_total (a b : List Char) :
    charListLe a b = true ∨ charListLe b a = true := by
  induction a generalizing b with
  | nil => left; rfl
  | cons x xs ih =>
    cases b with
    | nil => right; rfl
    | cons y ys =>
      rcases Nat.lt_trichotomy x.toNat y.toNat with h | h | h
      · left; simp [charListLe, h]
      · rcases ih ys with h2 | h2
        · left; simp [charListLe, h, h2]
        · right; simp [charListLe, h.symm, h2]
      · right; simp [charListLe, h]

theorem charListLe_trans (a b c : List Char)
    (h1 : charListLe a b = true) (h2 : charListLe b c = true) :
    charListLe a c = true := by
  induction a generalizing b c with
  | nil => rfl
  | cons x xs ih =>
    cases b with
    | nil => simp [charListLe] at h1
    | cons y ys =>
      cases c with
      | nil => simp [charListLe] at h2
      | cons z zs =>
        simp only [charListLe, Bool.or_eq_true, Bool.and_eq_true,
          decide_eq_true_eq, beq_iff_eq] at h1 h2 ⊢
        rcases h1 with h1 | ⟨he1, h1⟩
        · rcases h2 with h2 | ⟨he2, h2⟩
          · exact Or.inl (Nat.lt_trans h1 h2)
          · exact Or.inl (he2 ▸ h1)
        · rcases h2 with h2 | ⟨he2, h2⟩
          · exact Or.inl (he1 ▸ h2)
          · exact Or.inr ⟨he1.trans he2, ih ys zs h1 h2⟩

theorem charListLe_antisymm (a b : List Char)
    (h1 : charListLe a b = true) (h2 : charListLe b a = true) : a = b := by
  induction a generalizing b with
  | nil =>
    cases b with
    | nil => rfl
    | cons y ys => simp [charListLe] at h2
  | cons x xs ih =>
    cases b with
    | nil => simp [charListLe] at h1
    | cons y ys =>
      simp only [charListLe, Bool.or_eq_true, Bool.and_eq_true,
        decide_eq_true_eq, beq_iff_eq] at h1 h2
      rcases h1 with h1 | ⟨he1, h1⟩
      · rcases h2 with h2 | ⟨he2, _⟩
        · exact absurd (Nat.lt_trans h1 h2) (Nat.lt_irrefl _)
        · exact absurd h1 (he2 ▸ Nat.lt_irrefl _)
      · rcases h2 with h2 | ⟨_, h2⟩
        · exact absurd h2 (he1 ▸ Nat.lt_irrefl _)
        · have hx : x = y := Char.eq_of_val_eq (UInt32.toNat.inj he1)
          exact hx ▸ congrArg (List.cons x) (ih ys h1 h2)

theorem charListLt_iff (a b : List Char) :
    charListLt a b = true ↔ charListLe a b = true ∧ a ≠ b := by
  induction a generalizing b with
  | nil =>
    cases b with
    | nil => simp [charListLt, charListLe]
    | cons y ys => simp [charListLt, charListLe]
  | cons x xs ih =>
    cases b with
    | nil => simp [charListLt, charListLe]
    | cons y ys =>
      simp only [charListLt, charListLe, Bool.or_eq_true, Bool.and_eq_true,
        decide_eq_true_eq, beq_iff_eq]
      constructor
      · rintro (h | ⟨he, h⟩)
        · exact ⟨Or.inl h, by
            intro hc
            injection hc with hc1 _
            exact absurd h (hc1 ▸ Nat.lt_irrefl _)⟩
        · rcases (ih ys).mp h with ⟨hle, hne⟩
          refine ⟨Or.inr ⟨he, hle⟩, ?_⟩
          intro hc; injection hc with _ hc2; exact hne hc2
      · rintro ⟨h | ⟨he, hle⟩, hne⟩
        · exact Or.inl h
        · refine Or.inr ⟨he, (ih ys).mpr ⟨hle, ?_⟩⟩
          intro hc
          exact hne (by
            have hx : x = y := Char.eq_of_val_eq (UInt32.toNat.inj he)
            rw [hx, hc])

theorem strLe_refl (s : String) : strLe s s = true := charListLe_refl _

theorem strLe_total (a b : String) : strLe a b = true ∨ strLe b a = true :=
  charListLe_total _ _

theorem strLe_trans (a b c : String) (h1 : strLe a b = true)
    (h2 : strLe b c = true) : strLe a c = true :=
  charListLe_trans _ _ _ h1 h2

theorem strLe_antisymm (a b : String) (h1 : strLe a b = true)
    (h2 : strLe b a = true) : a = b := by
  cases a; cases b
  exact congrArg String.mk (charListLe_antisymm _ _ h1 h2)

theorem strLt_iff (a b : String) : strLt a b = true ↔ strLe a b = true ∧ a ≠ b := by
  unfold strLt strLe
  rw [charListLt_iff]
  constructor
  · rintro ⟨h1, h2⟩
    exact ⟨h1, fun hc => h2 (by rw [hc])⟩
  · rintro ⟨h1, h2⟩
    refine ⟨h1, fun hc => h2 ?_⟩
    cases a; cases b
    exact congrArg String.mk hc

/-! ## Stable insertion sort with a Bool-valued order

Python's `list.sort` and `sorted` are stable sorts.  A stable sort's output
is uniquely determined by the order and the input sequence, so a stable
insertion sort is a faithful model of them. -/

/-- Insert an element into a sorted list, before the first element it is
`le`-below-or-equal to (stable: an element inserted from the left ends up
before elements that compare equal). -/
def insertSorted {α : Type} (le : α → α → Bool) (a : α) : List α → List α
  | [] => [a]
  | b :: l => if le a b then a :: b :: l else b :: insertSorted le a l

/-- Stable insertion sort with a Bool order (model of Python sorting). -/
def isort {α : Type} (le : α → α → Bool) : List α → List α
  | [] => []
  | a :: l => insertSorted le a (isort le l)

theorem insertSorted_perm {α : Type} (le : α → α → Bool) (a : α) (l : List α) :
    List.Perm (insertSorted le a l) (a :: l) := by
  induction l with
  | nil => exact List.Perm.refl _
  | cons b u ih =>
    by_cases h : le a b = true
    · simp [insertSorted, h]
    · simp only [insertSorted, if_neg h]
      exact List.Perm.trans (ih.cons b) (List.Perm.swap a b u)

theorem isort_perm {α : Type} (le : α → α → Bool) (l : List α) :
    List.Perm (isort le l) l := by
  induction l with
  | nil => exact List.Perm.refl _
  | cons a t ih =>
    exact List.Perm.trans (insertSorted_perm le a (isort le t)) (ih.cons a)

theorem insertSorted_pairwise {α : Type} (le : α → α → Bool)
    (htotal : ∀ a b, le a b = true ∨ le b a = true)
    (htrans : ∀ a b c, le a b = true → le b c = true → le a c = true)
    (a : α) (l : List α) (hl : l.Pairwise (fun x y => le x y = true)) :
    (insertSorted le a l).Pairwise (fun x y => le x y = true) := by
  induction l with
  | nil => simp [insertSorted]
  | cons b u ih =>
    rcases List.pairwise_cons.mp hl with ⟨hb, hu⟩
    by_cases h : le a b = true
    · simp only [insertSorted, if_pos h]
      refine List.pairwise_cons.mpr ⟨?_, hl⟩
      intro x hx
      rcases List.mem_cons.mp hx with hx | hx
      · exact hx ▸ h
      · exact htrans a b x h (hb x hx)
    · simp only [insertSorted, if_neg h]
      refine List.pairwise_cons.mpr ⟨?_, ih hu⟩
      intro x hx
      have hperm := insertSorted_perm le a u
      rcases List.mem_cons.mp (hperm.mem_iff.mp hx) with hx | hx
      · rw [hx]
        rcases htotal a b with hab | hba
        · exact absurd hab h
        · exact hba
      · exact hb x hx

theorem isort_pairwise {α : Type} (le : α → α → Bool)
    (htotal : ∀ a b, le a b = true ∨ le b a = true)
    (htrans : ∀ a b c, le a b = true → le b c = true → le a c = true)
    (l : List α) : (isort le l).Pairwise (fun x y => le x y = true) := by
  induction l with
  | nil => simp [isort]
  | cons a t ih => exact insertSorted_pairwise le htotal htrans a (isort le t) ih

/-- Two pairwise-`r` lists that are permutations of each other are equal,
provided `r` is antisymmetric on the values involved. -/
theorem eq_of_perm_of_pairwise {α : Type} (r : α → α → Prop)
    (hanti : ∀ a b, r a b → r b a → a = b) :
    ∀ (l1 l2 : List α), l1.Pairwise r → l2.Pairwise r →
      List.Perm l1 l2 → l1 = l2 := by
  intro l1
  induction l1 with
  | nil =>
    intro l2 _ _ hp
    exact hp.nil_eq
  | cons a t ih =>
    intro l2 h1 h2 hp
    cases l2 with
    | nil => exact absurd hp.symm (by simp)
    | cons b u =>
      rcases List.pairwise_cons.mp h1 with ⟨ha, ht⟩
      rcases List.pairwise_cons.mp h2 with ⟨hbu, hu⟩
      have hab : a = b := by
        have hamem : a ∈ b :: u := hp.mem_iff.mp (List.mem_cons_self a t)
        have hbmem : b ∈ a :: t := hp.symm.mem_iff.mp (List.mem_cons_self b u)
        rcases List.mem_cons.mp hamem with h | h
        · exact h
        · rcases List.mem_cons.mp hbmem with h2 | h2
          · exact h2.symm
          · exact hanti a b (ha b h2) (hbu a h)
      subst hab
      have : List.Perm t u := (List.perm_cons a).mp hp
      exact congrArg (List.cons a) (ih u ht hu this)

/-! ## Association lists with CPython dict semantics

Python dicts preserve insertion order; writing to an existing key keeps the
key's position and replaces the value, writing a fresh key appends at the
end.  All graph node tables and property maps in the source are dicts with
string keys. -/

/-- Python `d.get(k)` / `d[k]` for a string-keyed dict. -/
def dictGet {α : Type} (d : List (String × α)) (k : String) : Option α :=
  match d with
  | [] => none
  | (k2, v) :: rest => if k2 = k then some v else dictGet rest k

/-- Python `d[k] = v` for a string-keyed dict (replace in place or append). -/
def dictSet {α : Type} (d : List (String × α)) (k : String) (v : α) :
    List (String × α) :=
  match d with
  | [] => [(k, v)]
  | (k2, v2) :: rest =>
      if k2 = k then (k, v) :: rest else (k2, v2) :: dictSet rest k v

/-- Key sequence of a dict, in insertion order. -/
def dictKeys {α : Type} (d : List (String × α)) : List String := d.map Prod.fst

/-! ## Python property values

`PVal` models the values stored in node property maps: `None`, booleans,
numbers (modelled as exact rationals), strings, lists, tuples, sets
(modelled as their element sequence) and string-keyed nested mappings.
This is the value universe the kernel's `_jsonish` normalizer and the
compiler's guard evaluator operate on. -/

inductive PVal : Type where
  | pnone : PVal
  | pbool (b : Bool) : PVal
  | pnum (q : Rat) : PVal
  | pstr (s : String) : PVal
  | plist (xs : List PVal) : PVal
  | ptuple (xs : List PVal) : PVal
  | pset (xs : List PVal) : PVal
  | pdict (entries : List (String × PVal)) : PVal

mutual

/-- Structural equality test on `PVal` (used for decidable equality). -/
def PVal.beq : PVal → PVal → Bool
  | .pnone, .pnone => true
  | .pbool a, .pbool b => a == b
  | .pnum a, .pnum b => a == b
  | .pstr a, .pstr b => a == b
  | .plist a, .plist b => PVal.beqList a b
  | .ptuple a, .ptuple b => PVal.beqList a b
  | .pset a, .pset b => PVal.beqList a b
  | .pdict a, .pdict b => PVal.beqEntries a b
  | _, _ => false

/-- Pointwise structural equality on value lists. -/
def PVal.beqList : List PVal → List PVal → Bool
  | [], [] => true
  | a :: as, b :: bs => PVal.beq a b && PVal.beqList as bs
  | _, _ => false

/-- Pointwise structural equality on entry lists. -/
def PVal.beqEntries : List (String × PVal) → List (String × PVal) → Bool
  | [], [] => true
  | (k, a) :: as, (l, b) :: bs => k == l && PVal.beq a b && PVal.beqEntries as bs
  | _, _ => false

end

mutual

theorem PVal.beq_iff : ∀ a b : PVal, PVal.beq a b = true ↔ a = b
  | .pnone, .pnone => by simp [PVal.beq]
  | .pbool _, .pbool _ => by simp [PVal.beq]
  | .pnum _, .pnum _ => by simp [PVal.beq]
  | .pstr _, .pstr _ => by simp [PVal.beq]
  | .plist a, .plist b => by simp [PVal.beq, PVal.beqList_iff a b]
  | .ptuple a, .ptuple b => by simp [PVal.beq, PVal.beqList_iff a b]
  | .pset a, .pset b => by simp [PVal.beq, PVal.beqList_iff a b]
  | .pdict a, .pdict b => by simp [PVal.beq, PVal.beqEntries_iff a b]
  | .pnone, .pbool _ => by simp [PVal.beq]
  | .pnone, .pnum _ => by simp [PVal.beq]
  | .pnone, .pstr _ => by simp [PVal.beq]
  | .pnone, .plist _ => by simp [PVal.beq]
  | .pnone, .ptuple _ => by simp [PVal.beq]
  | .pnone, .pset _ => by simp [PVal.beq]
  | .pnone, .pdict _ => by simp [PVal.beq]
  | .pbool _, .pnone => by simp [PVal.beq]
  | .pbool _, .pnum _ => by simp [PVal.beq]
  | .pbool _, .pstr _ => by simp [PVal.beq]
  | .pbool _, .plist _ => by simp [PVal.beq]
  | .pbool _, .ptuple _ => by simp [PVal.beq]
  | .pbool _, .pset _ => by simp [PVal.beq]
  | .pbool _, .pdict _ => by simp [PVal.beq]
  | .pnum _, .pnone => by simp [PVal.beq]
  | .pnum _, .pbool _ => by simp [PVal.beq]
  | .pnum _, .pstr _ => by simp [PVal.beq]
  | .pnum _, .plist _ => by simp [PVal.beq]
  | .pnum _, .ptuple _ => by simp [PVal.beq]
  | .pnum _, .pset _ => by simp [PVal.beq]
  | .pnum _, .pdict _ => by simp [PVal.beq]
  | .pstr _, .pnone => by simp [PVal.beq]
  | .pstr _, .pbool _ => by simp [PVal.beq]
  | .pstr _, .pnum _ => by simp [PVal.beq]
  | .pstr _, .plist _ => by simp [PVal.beq]
  | .pstr _, .ptuple _ => by simp [PVal.beq]
  | .pstr _, .pset _ => by simp [PVal.beq]
  | .pstr _, .pdict _ => by simp [PVal.beq]
  | .plist _, .pnone => by simp [PVal.beq]
  | .plist _, .pbool _ => by simp [PVal.beq]
  | .plist _, .pnum _ => by simp [PVal.beq]
  | .plist _, .pstr _ => by simp [PVal.beq]
  | .plist _, .ptuple _ => by simp [PVal.beq]
  | .plist _, .pset _ => by simp [PVal.beq]
  | .plist _, .pdict _ => by simp [PVal.beq]
  | .ptuple _, .pnone => by simp [PVal.beq]
  | .ptuple _, .pbool _ => by simp [PVal.beq]
  | .ptuple _, .pnum _ => by simp [PVal.beq]
  | .ptuple _, .pstr _ => by simp [PVal.beq]
  | .ptuple _, .plist _ => by simp [PVal.beq]
  | .ptuple _, .pset _ => by simp [PVal.beq]
  | .ptuple _, .pdict _ => by simp [PVal.beq]
  | .pset _, .pnone => by simp [PVal.beq]
  | .pset _, .pbool _ => by simp [PVal.beq]
  | .pset _, .pnum _ => by simp [PVal.beq]
  | .pset _, .pstr _ => by simp [PVal.beq]
  | .pset _, .plist _ => by simp [PVal.beq]
  | .pset _, .ptuple _ => by simp [PVal.beq]
  | .pset _, .pdict _ => by simp [PVal.beq]
  | .pdict _, .pnone => by simp [PVal.beq]
  | .pdict _, .pbool _ => by simp [PVal.beq]
  | .pdict _, .pnum _ => by simp [PVal.beq]
  | .pdict _, .pstr _ => by simp [PVal.beq]
  | .pdict _, .plist _ => by simp [PVal.beq]
  | .pdict _, .ptuple _ => by simp [PVal.beq]
  | .pdict _, .pset _ => by simp [PVal.beq]

theorem PVal.beqList_iff : ∀ a b : List PVal, PVal.beqList a b = true ↔ a = b
  | [], [] => by simp [PVal.beqList]
  | a :: as, b :: bs => by
      simp [PVal.beqList, PVal.beq_iff a b, PVal.beqList_iff as bs]
  | [], _ :: _ => by simp [PVal.beqList]
  | _ :: _, [] => by simp [PVal.beqList]

theorem PVal.beqEntries_iff :
    ∀ a b : List (String × PVal), PVal.beqEntries a b = true ↔ a = b
  | [], [] => by simp [PVal.beqEntries]
  | (k, a) :: as, (l, b) :: bs => by
      simp [PVal.beqEntries, PVal.beq_iff a b, PVal.beqEntries_iff as bs]
  | [], _ :: _ => by simp [PVal.beqEntries]
  | _ :: _, [] => by simp [PVal.beqEntries]

end

instance : DecidableEq PVal := fun a b =>
  decidable_of_iff (PVal.beq a b = true) (PVal.beq_iff a b)

/-! ## Python runtime semantics on values -/

/-- Python truthiness, `bool(v)`. -/
def pyTruthy : PVal → Bool
  | .pnone => false
  | .pbool b => b
  | .pnum q => q != 0
  | .pstr s => s != ""
  | .plist xs => !xs.isEmpty
  | .ptuple xs => !xs.isEmpty
  | .pset xs => !xs.isEmpty
  | .pdict es => !es.isEmpty

/-- Numeric view of a value; Python treats `bool` as a number (`True == 1`). -/
def numVal : PVal → Option Rat
  | .pbool b => some (if b then 1 else 0)
  | .pnum q => some q
  | _ => none

mutual

/-- Python `==` on values.  Numbers and booleans compare numerically;
lists never equal tuples.  Modelling restriction: nested sets and
mappings are compared structurally (element/insertion order sensitive),
whereas Python compares them order-insensitively — no guard or rule in
the repository compares container-valued properties. -/
def pyEq : PVal → PVal → Bool
  | .pnone, .pnone => true
  | .pstr a, .pstr b => a == b
  | .plist a, .plist b => pyEqList a b
  | .ptuple a, .ptuple b => pyEqList a b
  | .pset a, .pset b => pyEqList a b
  | .pdict a, .pdict b => pyEqEntries a b
  | a, b =>
      match numVal a, numVal b with
      | some x, some y => x == y
      | _, _ => false

/-- Pointwise Python `==` on sequences. -/
def pyEqList : List PVal → List PVal → Bool
  | [], [] => true
  | a :: as, b :: bs => pyEq a b && pyEqList as bs
  | _, _ => false

/-- Pointwise Python `==` on entry lists. -/
def pyEqEntries : List (String × PVal) → List (String × PVal) → Bool
  | [], [] => true
  | (k, a) :: as, (l, b) :: bs => k == l && pyEq a b && pyEqEntries as bs
  | _, _ => false

end

/-- Python `x in xs` for a sequence, via `==`. -/
def pyMem (x : PVal) : List PVal → Bool
  | [] => false
  | y :: ys => pyEq x y || pyMem x ys

/-- Whether `needle` occurs at the front of `hay`. -/
def atFront : List Char → List Char → Bool
  | [], _ => true
  | _ :: _, [] => false
  | a :: as, b :: bs => a == b && atFront as bs

/-- Whether `needle` occurs somewhere inside `hay` (Python substring test). -/
def hasSub (needle : List Char) : List Char → Bool
  | [] => needle.isEmpty
  | c :: rest => atFront needle (c :: rest) || hasSub needle rest

/-- Python `lhs in rhs`: sequence/set membership via `==`, substring test
for strings, key containment for mappings; a non-container right-hand side
raises `TypeError` (modelled as `Except.error`). -/
def pyIn (lhs rhs : PVal) : Except Unit Bool :=
  match rhs with
  | .plist xs => .ok (pyMem lhs xs)
  | .ptuple xs => .ok (pyMem lhs xs)
  | .pset xs => .ok (pyMem lhs xs)
  | .pstr s =>
      match lhs with
      | .pstr t => .ok (hasSub t.data s.data)
      | _ => .error ()
  | .pdict es =>
      match lhs with
      | .pstr k => .ok (dictGet es k).isSome
      | _ => .ok false
  | _ => .error ()

mutual

/-- Python `lhs < rhs`: numeric for numbers/booleans, lexicographic for
strings and same-kind sequences; everything else (mixed kinds, `None`,
mappings, sets) is modelled as raising `TypeError`.  (Python's subset
ordering on sets is not modelled; no guard in the repository compares
sets.) -/
def pyLt : PVal → PVal → Except Unit Bool
  | .pstr a, .pstr b => .ok (strLt a b)
  | .plist a, .plist b => pyLtSeq a b
  | .ptuple a, .ptuple b => pyLtSeq a b
  | a, b =>
      match numVal a, numVal b with
      | some x, some y => .ok (decide (x < y))
      | _, _ => .error ()

/-- Lexicographic strict sequence comparison: skip `==`-equal heads, then
compare the first differing elements with `<`. -/
def pyLtSeq : List PVal → List PVal → Except Unit Bool
  | [], [] => .ok false
  | [], _ :: _ => .ok true
  | _ :: _, [] => .ok false
  | a :: as, b :: bs => if pyEq a b then pyLtSeq as bs else pyLt a b

end

mutual

/-- Python `lhs <= rhs`, mirroring `pyLt`. -/
def pyLe : PVal → PVal → Except Unit Bool
  | .pstr a, .pstr b => .ok (strLe a b)
  | .plist a, .plist b => pyLeSeq a b
  | .ptuple a, .ptuple b => pyLeSeq a b
  | a, b =>
      match numVal a, numVal b with
      | some x, some y => .ok (decide (x ≤ y))
      | _, _ => .error ()

/-- Lexicographic non-strict sequence comparison. -/
def pyLeSeq : List PVal → List PVal → Except Unit Bool
  | [], _ => .ok true
  | _ :: _, [] => .ok false
  | a :: as, b :: bs => if pyEq a b then pyLeSeq as bs else pyLt a b

end

/-- Model of `_op_eval` (compiler.py, lines 13-23): dispatch on the guard
operator; comparison type errors and unsupported operators (including a
non-string operator value) are `Except.error`, mirroring exceptions.
Python's `lhs > rhs` on built-in types is the reflected `rhs < lhs`. -/
def op_eval (lhs : PVal) (op : PVal) (rhs : PVal) : Except Unit Bool :=
  if op = .pstr "<" then pyLt lhs rhs
  else if op = .pstr "<=" then pyLe lhs rhs
  else if op = .pstr ">" then pyLt rhs lhs
  else if op = .pstr ">=" then pyLe rhs lhs
  else if op = .pstr "==" then .ok (pyEq lhs rhs)
  else if op = .pstr "!=" then .ok (!(pyEq lhs rhs))
  else if op = .pstr "in" then pyIn lhs rhs
  else if op = .pstr "notin" then (pyIn lhs rhs).map (fun b => !b)
  else if op = .pstr "exists" then .ok (pyTruthy lhs)
  else .error ()

/-! ## The `_jsonish` normalizer and canonical signatures (kernel.py) -/

/-- Constructor rank, used to totalize the raw order on set elements. -/
def pvRank : PVal → Nat
  | .pnone => 0
  | .pbool _ => 1
  | .pnum _ => 2
  | .pstr _ => 3
  | .plist _ => 4
  | .ptuple _ => 5
  | .pset _ => 6
  | .pdict _ => 7

mutual

/-- Total Bool order on raw values, modelling `sorted(v)` on a set's
elements.  Python sorts homogeneous hashable elements (numbers, strings,
tuples); a heterogeneous set would raise.  The model totalizes the order
by constructor rank so the definition remains a function. -/
def pvRawLe (a b : PVal) : Bool :=
  match a, b with
  | .pbool x, .pbool y => !x || y
  | .pnum x, .pnum y => decide (x ≤ y)
  | .pstr x, .pstr y => strLe x y
  | .ptuple x, .ptuple y => pvRawLeList x y
  | a, b => decide (pvRank a ≤ pvRank b)

/-- Lexicographic raw order on tuples. -/
def pvRawLeList : List PVal → List PVal → Bool
  | [], _ => true
  | _ :: _, [] => false
  | a :: as, b :: bs => if PVal.beq a b then pvRawLeList as bs else pvRawLe a b

end

mutual

/-- Normalization of hashable values (the only possible set elements):
tuples become lists recursively, scalars are unchanged.  Lists, sets and
mappings cannot be set members in Python (unhashable), so they are left
untouched here. -/
def jsonishHashable : PVal → PVal
  | .ptuple xs => .plist (jsonishHashableList xs)
  | v => v

/-- Pointwise `jsonishHashable`. -/
def jsonishHashableList : List PVal → List PVal
  | [] => []
  | x :: xs => jsonishHashable x :: jsonishHashableList xs

end

/-- Entry order by key (`strLe` on the first component). -/
def entryLe {α : Type} (a b : String × α) : Bool := strLe a.1 b.1

/-- Sort a dict's entries by key with the stable sort. -/
def sortEntries {α : Type} (l : List (String × α)) : List (String × α) :=
  isort entryLe l

mutual

/-- Model of `_jsonish` (kernel.py, lines 82-90): mappings are sorted by
key with values normalized recursively, lists and tuples both become
lists preserving order, sets become the sorted list of their normalized
elements, scalars are unchanged.  The source sorts a mapping's raw items
before normalizing the values; since a dict's keys are unique, sorting by
key after normalizing (done here, keeping the recursion structural)
yields the same entry order.  Likewise a set is sorted raw and its
(hashable) elements then normalized, for which `jsonishHashable`
coincides with the full normalizer. -/
def jsonish : PVal → PVal
  | .pdict es => .pdict (sortEntries (jsonishEntries es))
  | .plist xs => .plist (jsonishList xs)
  | .ptuple xs => .plist (jsonishList xs)
  | .pset xs => .plist (jsonishHashableList (isort pvRawLe xs))
  | v => v

/-- Pointwise `jsonish` on sequences. -/
def jsonishList : List PVal → List PVal
  | [] => []
  | x :: xs => jsonish x :: jsonishList xs

/-- Keywise `jsonish` on entry lists. -/
def jsonishEntries : List (String × PVal) → List (String × PVal)
  | [] => []
  | (k, v) :: es => (k, jsonish v) :: jsonishEntries es

end

/-! ## Property graph (kernel.py `Graph`)

Nodes live in a dict `id -> {"type": str, "props": dict}` and edges in a
list of string triples.  In this pure value model a node entry is the pair
of its type tag and its property map; reference-level aliasing of property
values (relevant only to clone isolation) is studied separately in the
`Mem` heap model below. -/

structure PNode where
  ntype : String
  props : List (String × PVal)
deriving DecidableEq

structure Graph where
  nodes : List (String × PNode)
  edges : List (String × String × String)
deriving DecidableEq

/-- Model of `Graph.add_node`: last write wins, an existing id keeps its
position in the node table (CPython dict semantics). -/
def Graph.add_node (g : Graph) (nid ntype : String)
    (props : List (String × PVal)) : Graph :=
  { g with nodes := dictSet g.nodes nid ⟨ntype, props⟩ }

/-- Model of `Graph.add_edge`: append, no endpoint existence check. -/
def Graph.add_edge (g : Graph) (src etype dst : String) : Graph :=
  { g with edges := g.edges ++ [(src, etype, dst)] }

/-- Model of `Graph.has_node`. -/
def Graph.has_node (g : Graph) (nid : String) : Bool :=
  (dictGet g.nodes nid).isSome

/-- Model of `Graph.find`: all ids of nodes with the given type tag, in
node-table insertion order. -/
def Graph.find (g : Graph) (ntype : String) : List String :=
  g.nodes.filterMap (fun p => if p.2.ntype = ntype then some p.1 else none)

/-- Property map of a node, defaulting to empty for a missing id; used
only after a `has_node` check, where the source cannot raise. -/
def Graph.propsD (g : Graph) (nid : String) : List (String × PVal) :=
  ((dictGet g.nodes nid).map PNode.props).getD []

/-- Model of `Graph.clone` at the value level: rebuild every node entry
and copy the edge list.  On pure values this preserves the graph's
content exactly; the sharing of nested property values that `clone`'s
one-level `dict(...)` copy exhibits is modelled in the `Mem` namespace. -/
def Graph.clone (g : Graph) : Graph :=
  { nodes := g.nodes.map (fun p => (p.1, ⟨p.2.ntype, p.2.props⟩)),
    edges := g.edges }

/-- Canonical payload: the ordered structure that `Graph.signature`
serializes with `json.dumps` and digests with SHA-256 — node tuples
`(id, type, sorted normalized props)` sorted by id, and the sorted edge
triples. -/
structure Payload where
  n : List (String × String × List (String × PVal))
  e : List (String × String × String)
deriving DecidableEq

/-- Lexicographic order on edge triples (Python tuple comparison). -/
def tripleLe (a b : String × String × String) : Bool :=
  strLt a.1 b.1 ||
    (a.1 == b.1 &&
      (strLt a.2.1 b.2.1 || (a.2.1 == b.2.1 && strLe a.2.2 b.2.2)))

/-- Normalized property list of one node:
`tuple(sorted((k, _jsonish(v)) for k, v in props.items()))`.  Keys are
unique, so the sort is by key. -/
def normProps (props : List (String × PVal)) : List (String × PVal) :=
  sortEntries (jsonishEntries props)

/-- Node entries with normalized properties, in table order. -/
def normNodeEntries (g : Graph) : List (String × String × List (String × PVal)) :=
  g.nodes.map (fun p => (p.1, p.2.ntype, normProps p.2.props))

/-- Model of the body of `Graph.signature` (kernel.py, lines 66-79) up to
serialization: the source iterates `sorted(self.nodes)` and looks each id
up, which for the duplicate-free node table equals sorting the entries by
id. -/
def canonical_payload (g : Graph) : Payload :=
  { n := isort entryLe (normNodeEntries g),
    e := isort tripleLe g.edges }

/-- Model of `Graph.signature`: the source serializes `canonical_payload`
with `json.dumps` and hashes the bytes with SHA-256, a fixed deterministic
(injective up to hash collisions) function of the payload; that digest
step is the parameter `h`. -/
def Graph.signature {β : Type} (h : Payload → β) (g : Graph) : β :=
  h (canonical_payload g)

/-! ## Python exceptions -/

inductive PyErr : Type where
  | keyError (key : String) : PyErr
  | valueError (msg : String) : PyErr
deriving DecidableEq

/-! ## Assoc lists keyed by values (Python dicts with non-string keys) -/

/-- Dict read for a `PVal`-keyed dict (parameter tables use `p["key"]` as
key, which is a string in every shipped rule but any value in principle).
Key equality is structural, a faithful model for the key shapes that occur
(Python's `1 == True` key folding is not exercised). -/
def pkGet {α : Type} (d : List (PVal × α)) (k : PVal) : Option α :=
  match d with
  | [] => none
  | (k2, v) :: rest => if k2 = k then some v else pkGet rest k

/-- Dict write for a `PVal`-keyed dict (replace in place or append). -/
def pkSet {α : Type} (d : List (PVal × α)) (k : PVal) (v : α) :
    List (PVal × α) :=
  match d with
  | [] => [(k, v)]
  | (k2, v2) :: rest =>
      if k2 = k then (k, v) :: rest else (k2, v2) :: pkSet rest k v

/-! ## Rule-graph schema helpers (rules_pgr_base.py) -/

/-- Model of `add_ruleset`. -/
def add_ruleset (rg : Graph) (rid : String) (props : List (String × PVal)) :
    Graph :=
  rg.add_node rid "RuleSet"
    (props.foldl (fun d kv => dictSet d kv.1 kv.2) [("name", .pstr "default")])

/-- Model of `add_rule`: a `Rule` node plus a `has_rule` edge from the
`"ruleset"` node. -/
def add_rule (rg : Graph) (rule_id name kind : String)
    (props : List (String × PVal)) : Graph :=
  (rg.add_node rule_id "Rule"
      (props.foldl (fun d kv => dictSet d kv.1 kv.2)
        [("name", .pstr name), ("kind", .pstr kind)])).add_edge
    "ruleset" "has_rule" rule_id

/-- Model of `add_param`. -/
def add_param (rg : Graph) (rule_id key : String) (value : PVal) : Graph :=
  let nid := rule_id ++ ".param." ++ key
  (rg.add_node nid "Param" [("key", .pstr key), ("value", value)]).add_edge
    rule_id "has_param" nid

/-- Model of `add_var`. -/
def add_var (rg : Graph) (rule_id vname vtype : String) : Graph :=
  let nid := rule_id ++ ".var." ++ vname
  (rg.add_node nid "PatternVar"
      [("var", .pstr vname), ("type", .pstr vtype)]).add_edge
    rule_id "has_var" nid

/-- Model of `add_guard`: the guard node id is derived from the rule id and
the `(var, key, op)` triple. -/
def add_guard (rg : Graph) (rule_id vname key op : String) (value : PVal) :
    Graph :=
  let gid := rule_id ++ ".guard." ++ vname ++ "." ++ key ++ "." ++ op
  (rg.add_node gid "Guard"
      [("var", .pstr vname), ("key", .pstr key), ("op", .pstr op),
        ("value", value)]).add_edge rule_id "has_guard" gid

/-- Edge-walk of `get_params` (rules_pgr_base.py, lines 47-53): a dangling
`has_param` edge target or a `Param` node missing `key`/`value` raises
`KeyError`. -/
def get_params_go (rg : Graph) (rule_id : String) :
    List (String × String × String) → List (PVal × PVal) →
      Except PyErr (List (PVal × PVal))
  | [], out => .ok out
  | (src, et, dst) :: rest, out =>
      if src = rule_id ∧ et = "has_param" then
        match dictGet rg.nodes dst with
        | none => .error (.keyError dst)
        | some node =>
            match dictGet node.props "key" with
            | none => .error (.keyError "key")
            | some k =>
                match dictGet node.props "value" with
                | none => .error (.keyError "value")
                | some v => get_params_go rg rule_id rest (pkSet out k v)
      else get_params_go rg rule_id rest out

/-- Model of `get_params`. -/
def get_params (rg : Graph) (rule_id : String) :
    Except PyErr (List (PVal × PVal)) :=
  get_params_go rg rule_id rg.edges []

/-- Shared edge-walk of `get_vars` and `get_guards` (which differ only in
the edge label): collect the attached nodes' property maps in edge order;
a dangling edge target raises `KeyError`. -/
def get_attached (rg : Graph) (rule_id etype : String) :
    List (String × String × String) →
      Except PyErr (List (List (String × PVal)))
  | [] => .ok []
  | (src, et, dst) :: rest =>
      if src = rule_id ∧ et = etype then
        match dictGet rg.nodes dst with
        | none => .error (.keyError dst)
        | some node =>
            (get_attached rg rule_id etype rest).map
              (fun out => node.props :: out)
      else get_attached rg rule_id etype rest

/-- Model of `get_vars`. -/
def get_vars (rg : Graph) (rule_id : String) :
    Except PyErr (List (List (String × PVal))) :=
  get_attached rg rule_id "has_var" rg.edges

/-- Model of `get_guards`. -/
def get_guards (rg : Graph) (rule_id : String) :
    Except PyErr (List (List (String × PVal))) :=
  get_attached rg rule_id "has_guard" rg.edges

/-- Model of `find_rule_id_by_name`: first node (in table order) whose type
is `Rule` and whose `name` property `==` the given name. -/
def find_rule_id_by_name_go (name : String) :
    List (String × PNode) → Option String
  | [] => none
  | (nid, n) :: rest =>
      if n.ntype == "Rule" &&
          pyEq ((dictGet n.props "name").getD .pnone) (.pstr name) then
        some nid
      else find_rule_id_by_name_go name rest

/-- Model of `find_rule_id_by_name`. -/
def find_rule_id_by_name (rg : Graph) (name : String) : Option String :=
  find_rule_id_by_name_go name rg.nodes

/-- Replace one property of one node in place (the `rg.nodes[dst]["props"]
["value"] = value` update inside the upsert); the id always exists at the
call site. -/
def setNodePropRaw (g : Graph) (nid k : String) (v : PVal) : Graph :=
  match dictGet g.nodes nid with
  | none => g
  | some n =>
      { g with nodes := dictSet g.nodes nid ⟨n.ntype, dictSet n.props k v⟩ }

/-- Scan of the upsert's update loop: first `has_guard` edge out of `rid`
whose target's `(var, key, op)` properties `==`-match; a dangling edge
target raises `KeyError`. -/
def findGuardTarget (rg : Graph) (rid vname key op : String) :
    List (String × String × String) → Except PyErr (Option String)
  | [] => .ok none
  | (src, et, dst) :: rest =>
      if src = rid ∧ et = "has_guard" then
        match dictGet rg.nodes dst with
        | none => .error (.keyError dst)
        | some node =>
            if pyEq ((dictGet node.props "var").getD .pnone) (.pstr vname) &&
                pyEq ((dictGet node.props "key").getD .pnone) (.pstr key) &&
                pyEq ((dictGet node.props "op").getD .pnone) (.pstr op) then
              .ok (some dst)
            else findGuardTarget rg rid vname key op rest
      else findGuardTarget rg rid vname key op rest

/-- Model of `upsert_threshold_guard` (rules_pgr_base.py, lines 70-83).
The source's `if not rid: return False` covers both a missing rule and a
matching rule whose id is the empty string (string truthiness).  The
in-place mutation is modelled by returning the updated graph. -/
def upsert_threshold_guard (rg : Graph) (rule_name vname key op : String)
    (value : PVal) : Except PyErr (Bool × Graph) :=
  match find_rule_id_by_name rg rule_name with
  | none => .ok (false, rg)
  | some rid =>
      if rid = "" then .ok (false, rg)
      else
        match findGuardTarget rg rid vname key op rg.edges with
        | .error e => .error e
        | .ok (some dst) => .ok (true, setNodePropRaw rg dst "value" value)
        | .ok none => .ok (true, add_guard rg rid vname key op value)

/-! ## Compiler: guard predicates and pattern matching (compiler.py) -/

/-- Binding environment: a Python dict from pattern-variable names (the
`var` property values — strings in every shipped rule, any value in
principle) to node ids. -/
def Env : Type := List (PVal × String)

/-- Python `props.get(key, None)` against a string-keyed property map: a
non-string key is simply absent. -/
def propGetVal (props : List (String × PVal)) (key : PVal) : PVal :=
  match key with
  | .pstr k => (dictGet props k).getD .pnone
  | _ => .pnone

/-- One iteration of the guard loop inside `make_guard_predicate`
(compiler.py, lines 34-53), as the guard's pass/fail value: `gd.get("var")
is None` (key absent, or stored `None`) selects the non-var path with
`lhs = None`; otherwise an unbound variable or a missing node fails; the
comparison runs with every exception caught (fail closed). -/
def eval_one_guard (gps : List (String × PVal)) (g : Graph) (env : Env) :
    Bool :=
  let var := (dictGet gps "var").getD .pnone
  let key := (dictGet gps "key").getD .pnone
  let op := (dictGet gps "op").getD .pnone
  let rhs := (dictGet gps "value").getD .pnone
  if var = .pnone then
    match op_eval .pnone op rhs with
    | .ok b => b
    | .error _ => false
  else
    match pkGet env var with
    | none => false
    | some nid =>
        if g.has_node nid then
          match op_eval (propGetVal (g.propsD nid) key) op rhs with
          | .ok b => b
          | .error _ => false
        else false

/-- Model of `make_guard_predicate` (compiler.py, lines 25-55): the empty
guard list compiles to the constant-true lambda; otherwise the loop
returns `False` as soon as one guard fails, which equals the conjunction
of the per-guard values. -/
def make_guard_predicate (guards : List (List (String × PVal))) :
    Graph → Env → Bool :=
  if guards.isEmpty then fun _ _ => true
  else fun g env => guards.all (fun gd => eval_one_guard gd g env)

/-- Candidate node ids for a required type: `g.find` compares the string
type tag with `==`, so a non-string required type matches nothing. -/
def varCands (g : Graph) (vtype : PVal) : List String :=
  match vtype with
  | .pstr t => g.find t
  | _ => []

/-- Pool construction of `match_var_bindings`: per declared variable, the
`(var, nid)` candidates; a falsy name or type, or an empty candidate
list, aborts the whole matcher (`return []`, modelled as `none`). -/
def buildPools (g : Graph) :
    List (List (String × PVal)) → Option (List (PVal × List String))
  | [] => some []
  | vs :: rest =>
      let vname := (dictGet vs "var").getD .pnone
      let vtype := (dictGet vs "type").getD .pnone
      if pyTruthy vname && pyTruthy vtype then
        let cands := varCands g vtype
        if cands.isEmpty then none
        else (buildPools g rest).map (fun ps => (vname, cands) :: ps)
      else none

/-- One pool step of the cartesian product: extend every environment by
every candidate whose node id is not already a bound value (`if nid in
env.values(): continue`). -/
def extendEnvs (vname : PVal) (cands : List String) (envs : List Env) :
    List Env :=
  envs.flatMap (fun env =>
    cands.filterMap (fun nid =>
      if nid ∈ env.map Prod.snd then none else some (pkSet env vname nid)))

/-- Model of `match_var_bindings` (compiler.py, lines 62-90). -/
def match_var_bindings (g : Graph) (vars_spec : List (List (String × PVal))) :
    List Env :=
  match buildPools g vars_spec with
  | none => []
  | some pools => pools.foldl (fun envs p => extendEnvs p.1 p.2 envs) [([] : Env)]

/-- Model of `_match_vars` (rule_handlers_std.py, lines 10-26): same
constrained cartesian product, but a falsy name/type yields an empty
candidate pool instead of aborting, and the loop breaks as soon as the
environment list becomes empty. -/
def match_vars_std (g : Graph) :
    List (List (String × PVal)) → List Env → List Env
  | [], envs => envs
  | vs :: rest, envs =>
      let vname := (dictGet vs "var").getD .pnone
      let vtype := (dictGet vs "type").getD .pnone
      let cands :=
        if pyTruthy vname && pyTruthy vtype then varCands g vtype else []
      let envs2 := extendEnvs vname cands envs
      if envs2.isEmpty then envs2 else match_vars_std g rest envs2

/-- Entry point of `_match_vars`. -/
def match_vars_std_main (g : Graph) (vars_spec : List (List (String × PVal))) :
    List Env :=
  match_vars_std g vars_spec [([] : Env)]

/-! ## Compiler: rule compilation (compiler.py `compile_rules_from_pgr`)

Handlers are domain plug-ins: the registry maps `kind` tags to handler
values of an abstract type `H`, and `callHandler` models calling a handler
with `(rg, rid, params, vars, guard_pred)` to obtain a rewrite function of
abstract type `F`. -/

structure CompileContext (H : Type) where
  registry : List (String × H)

/-- Node-table walk of `compile_rules_from_pgr` (compiler.py, lines
110-139): non-`Rule` nodes and `Rule` nodes with a falsy `kind` are
skipped; params/vars/guards are read (possibly raising `KeyError`); a
truthy `kind` with no registered handler raises `ValueError`. -/
def compile_go {H F : Type} (rg : Graph) (ctx : CompileContext H)
    (callHandler : H → Graph → String → List (PVal × PVal) →
      List (List (String × PVal)) → (Graph → Env → Bool) → F) :
    List (String × PNode) → List F → Except PyErr (List F)
  | [], fns => .ok fns
  | (rid, node) :: rest, fns =>
      if node.ntype = "Rule" then
        let kind := (dictGet node.props "kind").getD .pnone
        if pyTruthy kind then
          match get_params rg rid with
          | .error e => .error e
          | .ok params =>
              match get_vars rg rid with
              | .error e => .error e
              | .ok vars =>
                  match get_guards rg rid with
                  | .error e => .error e
                  | .ok guards =>
                      let guard_pred := make_guard_predicate guards
                      match
                        (match kind with
                          | .pstr k => dictGet ctx.registry k
                          | _ => none) with
                      | none =>
                          .error (.valueError
                            ("No handler registered for kind (rule id: " ++
                              rid ++ ")"))
                      | some h =>
                          compile_go rg ctx callHandler rest
                            (fns ++ [callHandler h rg rid params vars guard_pred])
        else compile_go rg ctx callHandler rest fns
      else compile_go rg ctx callHandler rest fns

/-- Model of `compile_rules_from_pgr`. -/
def compile_rules_from_pgr {H F : Type} (rg : Graph) (ctx : CompileContext H)
    (callHandler : H → Graph → String → List (PVal × PVal) →
      List (List (String × PVal)) → (Graph → Env → Bool) → F) :
    Except PyErr (List F) :=
  compile_go rg ctx callHandler rg.nodes []

/-! ## Search engine (search.py)

The search is generic: it touches candidate graphs only through the rule
functions, the evaluator, and the signature hook, so it is embedded
polymorphically in the graph type `G` and the signature type `S`.  The
source wires `cfg.signature_fn or default_signature_fn` (and likewise
scorer / stop predicate); here the resolved hooks are explicit arguments.
Python's seeded `random.random()` stream is an explicit function from the
draw index, consumed in call order.  The state field `elog` instruments
the two `evaluator.evaluate` call sites, recording (in call order) each
graph the Evaluator is invoked on; it affects nothing else. -/

structure Metrics where
  cost : Rat
  feasible : Bool
  extras : List (String × PVal)
deriving DecidableEq

structure RuleResult (G : Type) where
  new_graph : G
  desc : String

/-- Provenance step record: `Provenance.log` stores exactly
`{"rule": desc, "metrics": {...}}`; `delta_cost` models the optional key
the miner reads, which `log` never writes (always `none` here). -/
structure StepRec where
  rule : String
  metrics : Metrics
  delta_cost : Option Rat
deriving DecidableEq

/-- Model of `Provenance.log`. -/
def provLog (prov : List StepRec) (desc : String) (m : Metrics) :
    List StepRec :=
  prov ++ [{ rule := desc, metrics := m, delta_cost := none }]

/-- Search configuration (search.py `SearchConfig`); source defaults are
`iters = 120`, `beam_width = 16`, `random_perturb = 0.02`,
`novelty_bonus = 0.30`, `dedupe_beam = True`. -/
structure SearchConfig where
  iters : Nat
  beam_width : Nat
  random_perturb : Rat
  novelty_bonus : Rat
  dedupe_beam : Bool

/-- A scored beam entry: the tuple `(score, graph, metrics, desc, sig)`. -/
structure Cand (G S : Type) where
  score : Rat
  g : G
  m : Metrics
  desc : String
  sig : S

/-- Search loop state.  `done` records that the source's loop has exited
(early stop, fixed point, or the `beam[0]` IndexError path noted below). -/
structure SState (G S : Type) where
  beam : List (Cand G S)
  best : Cand G S
  prov : List StepRec
  seen : List S
  memo : List (S × Metrics)
  elog : List G
  rix : Nat
  done : Bool

/-- Signature-keyed memo lookup (`sig in memo` on a Python dict). -/
def memoGet {S : Type} [DecidableEq S] (memo : List (S × Metrics)) (s : S) :
    Option Metrics :=
  match memo with
  | [] => none
  | (s2, m) :: rest => if s2 = s then some m else memoGet rest s

/-- Model of `score_tuple` (search.py, lines 107-110): score is
`scorer(m) - novelty_bonus * [sig unseen] + random_perturb * random()`;
returns the candidate and the advanced random index. -/
def score_tuple {G S : Type} [DecidableEq S] (sigfn : G → S)
    (scorer : Metrics → Rat) (cfg : SearchConfig) (rand : Nat → Rat)
    (seen : List S) (rix : Nat) (g : G) (m : Metrics) (desc : String) :
    Cand G S × Nat :=
  let sig := sigfn g
  let novelty := cfg.novelty_bonus * (if sig ∈ seen then 0 else 1)
  (⟨scorer m - novelty + cfg.random_perturb * rand rix, g, m, desc, sig⟩,
    rix + 1)

/-- Accumulator of the candidate-expansion loop (memo, evaluator call log,
candidates so far, next random index). -/
structure ExpandAcc (G S : Type) where
  memo : List (S × Metrics)
  elog : List G
  cands : List (Cand G S)
  rix : Nat

/-- Body of the inner loop over rule results (search.py, lines 125-132):
memo hit, or evaluate-and-memoize, then append the scored candidate. -/
def expandOne {G S : Type} [DecidableEq S] (evaluate : G → Metrics)
    (sigfn : G → S) (scorer : Metrics → Rat) (cfg : SearchConfig)
    (rand : Nat → Rat) (seen : List S) (acc : ExpandAcc G S)
    (rr : RuleResult G) : ExpandAcc G S :=
  let sig := sigfn rr.new_graph
  match memoGet acc.memo sig with
  | some m =>
      let sc := score_tuple sigfn scorer cfg rand seen acc.rix rr.new_graph
        m rr.desc
      { acc with cands := acc.cands ++ [sc.1], rix := sc.2 }
  | none =>
      let m := evaluate rr.new_graph
      let sc := score_tuple sigfn scorer cfg rand seen acc.rix rr.new_graph
        m rr.desc
      { memo := acc.memo ++ [(sig, m)],
        elog := acc.elog ++ [rr.new_graph],
        cands := acc.cands ++ [sc.1], rix := sc.2 }

/-- Candidate order for `candidates.sort(key=lambda t: t[0])`. -/
def candLe {G S : Type} (a b : Cand G S) : Bool := decide (a.score ≤ b.score)

/-- Dedup-and-truncate selection (search.py, lines 141-149): keep at most
one candidate per signature, stopping once the beam width is reached; the
`len >= width` check runs after the append, so even width 0 keeps one. -/
def dedupeTake {G S : Type} [DecidableEq S] (width : Nat)
    (acc : List (Cand G S)) (sigs : List S) :
    List (Cand G S) → List (Cand G S) × List S
  | [] => (acc, sigs)
  | c :: rest =>
      if c.sig ∈ sigs then dedupeTake width acc sigs rest
      else
        let acc2 := acc ++ [c]
        let sigs2 := sigs ++ [c.sig]
        if width ≤ acc2.length then (acc2, sigs2)
        else dedupeTake width acc2 sigs2 rest

/-- Candidate expansion of one iteration (search.py, lines 120-132): all
rule results over the current beam, folded through `expandOne`. -/
def expandAll {G S : Type} [DecidableEq S]
    (rules : List (G → List (RuleResult G))) (evaluate : G → Metrics)
    (sigfn : G → S) (scorer : Metrics → Rat) (rand : Nat → Rat)
    (cfg : SearchConfig) (s : SState G S) : ExpandAcc G S :=
  ((s.beam.map (fun c => c.g)).flatMap
      (fun g => rules.flatMap (fun r => r g))).foldl
    (expandOne evaluate sigfn scorer cfg rand s.seen)
    ⟨s.memo, s.elog, [], s.rix⟩

/-- Next-beam selection (search.py, lines 140-153): dedup-and-truncate, or
plain truncation with its signature set. -/
def selectPair {G S : Type} [DecidableEq S] (cfg : SearchConfig)
    (sorted : List (Cand G S)) : List (Cand G S) × List S :=
  if cfg.dedupe_beam then dedupeTake cfg.beam_width [] [] sorted
  else
    (sorted.take cfg.beam_width,
      (sorted.take cfg.beam_width).map (fun c => c.sig))

/-- Iteration epilogue (search.py, lines 155-165), by cases on the selected
next beam: an empty selection is the source's `beam[0]` IndexError path
(unreachable in practice: selection from a nonempty candidate list is
empty only with `dedupe_beam` off and `beam_width = 0`), modelled as
halting with the state otherwise unchanged; otherwise track the best
(strict comparison), log the top candidate and test the stop predicate. -/
def searchFinish {G S : Type} [DecidableEq S] (stop_pred : Metrics → Bool)
    (s : SState G S) (acc : ExpandAcc G S) (seen2 : List S) :
    List (Cand G S) → SState G S
  | [] =>
      { s with
        memo := acc.memo
        elog := acc.elog
        rix := acc.rix
        seen := seen2
        beam := []
        done := true }
  | b0 :: rest =>
      let best2 := if b0.m.cost < s.best.m.cost then b0 else s.best
      { beam := b0 :: rest
        best := best2
        prov := provLog s.prov b0.desc b0.m
        seen := seen2
        memo := acc.memo
        elog := acc.elog
        rix := acc.rix
        done := stop_pred best2.m }

/-- The branch on the expanded candidates: none at all breaks the loop
(fixed point), otherwise sort, select and finish the iteration. -/
def searchBody {G S : Type} [DecidableEq S] (stop_pred : Metrics → Bool)
    (cfg : SearchConfig) (s : SState G S) (acc : ExpandAcc G S) :
    SState G S :=
  if acc.cands.isEmpty then
    { s with
      memo := acc.memo
      elog := acc.elog
      rix := acc.rix
      done := true }
  else
    searchFinish stop_pred s acc
      (s.seen ++ (selectPair cfg (isort candLe acc.cands)).2)
      (selectPair cfg (isort candLe acc.cands)).1

/-- One iteration of the main loop (search.py, lines 119-165); the
identity once the loop has exited. -/
def searchStep {G S : Type} [DecidableEq S]
    (rules : List (G → List (RuleResult G))) (evaluate : G → Metrics)
    (sigfn : G → S) (scorer : Metrics → Rat) (stop_pred : Metrics → Bool)
    (rand : Nat → Rat) (cfg : SearchConfig) (s : SState G S) : SState G S :=
  if s.done then s
  else searchBody stop_pred cfg s
    (expandAll rules evaluate sigfn scorer rand cfg s)

/-- Seeding of the search (search.py, lines 113-116): the initial graph is
evaluated directly — its metrics are NOT written to the memo — scored
(consuming one random draw, with the seen-set still empty) and logged as
the `"init"` provenance step. -/
def searchInit {G S : Type} [DecidableEq S] (initial : G)
    (evaluate : G → Metrics) (sigfn : G → S) (scorer : Metrics → Rat)
    (cfg : SearchConfig) (rand : Nat → Rat) : SState G S :=
  let m0 := evaluate initial
  let sc := score_tuple sigfn scorer cfg rand [] 0 initial m0 "init"
  { beam := [sc.1], best := sc.1, prov := provLog [] "init" m0, seen := [],
    memo := [], elog := [initial], rix := sc.2, done := false }

/-- State after `k` iterations of the main loop (the loop body is the
identity once `done` is set, so running the step `cfg.iters` times models
`for _ in range(cfg.iters)` with breaks). -/
def searchState {G S : Type} [DecidableEq S] (initial : G)
    (rules : List (G → List (RuleResult G))) (evaluate : G → Metrics)
    (sigfn : G → S) (scorer : Metrics → Rat) (stop_pred : Metrics → Bool)
    (rand : Nat → Rat) (cfg : SearchConfig) (k : Nat) : SState G S :=
  (searchStep rules evaluate sigfn scorer stop_pred rand cfg)^[k]
    (searchInit initial evaluate sigfn scorer cfg rand)

/-- Model of `search` (search.py, lines 81-168): best graph, its metrics
and the provenance trace after the iteration budget. -/
def search {G S : Type} [DecidableEq S] (initial : G)
    (rules : List (G → List (RuleResult G))) (evaluate : G → Metrics)
    (sigfn : G → S) (scorer : Metrics → Rat) (stop_pred : Metrics → Bool)
    (rand : Nat → Rat) (cfg : SearchConfig) : G × Metrics × List StepRec :=
  let sf := searchState initial rules evaluate sigfn scorer stop_pred rand
    cfg cfg.iters
  (sf.best.g, sf.best.m, sf.prov)

/-! ## Provenance miner (miner.py) -/

/-- Model of `mine_prev_value` (miner.py, lines 6-23).  The compiled regex
`^rule_name\([^)]*prev_key=(number)\)` together with the `float(...)`
conversion is abstracted as `extract` (an arbitrary function of the
description string — the theorems below hold for every such function);
the `desc.startswith(rule_name + "(")` check and the
`require_improvement` filter are modelled explicitly.
`s.get("delta_cost", 0)` is truthy exactly when the key is present with a
non-zero value, and the short-circuit `and` guards `s["delta_cost"] > 0`. -/
def mine_prev_value (extract : String → Option Rat) (steps : List StepRec)
    (rule_name : String) (require_improvement : Bool) : List Rat :=
  steps.foldl (fun out s =>
    if !(atFront (rule_name ++ "(").data s.rule.data) then out
    else if require_improvement &&
        !(match s.delta_cost with
          | some d => decide (d ≠ 0) && decide (0 < d)
          | none => false) then out
    else
      match extract s.rule with
      | some q => out ++ [q]
      | none => out) []

/-! ## Guard synthesizer (builder_core.py) -/

/-- Guard edit specification; source defaults are `op = "<"`,
`epsilon = 0.0`. -/
structure GuardEditSpec where
  rule_name : String
  var : String
  key : String
  op : String
  epsilon : Rat

/-- Model of `statistics.median`: middle element of the sorted samples for
odd length, mean of the two middle elements for even length. -/
def median (l : List Rat) : Rat :=
  let s := isort (fun a b : Rat => decide (a ≤ b)) l
  let n := s.length
  if n % 2 = 1 then s.getD (n / 2) 0
  else (s.getD (n / 2 - 1) 0 + s.getD (n / 2) 0) / 2

/-- Model of `reduce_threshold` (builder_core.py, lines 37-47). -/
def reduce_threshold (samples : List Rat) (epsilon : Rat) (reducer : String) :
    Except PyErr (Option Rat) :=
  if samples.isEmpty then .ok none
  else if reducer = "median" then .ok (some (median samples + epsilon))
  else if reducer = "mean" then
    .ok (some (samples.foldl (fun a b => a + b) 0 / samples.length + epsilon))
  else .error (.valueError ("Unknown reducer: " ++ reducer))

/-- Aggregates of `aggregate_metrics` (builder_core.py, lines 58-63).  The
empty-result branch yields `float("inf")` as the average cost in the
source; it is unreachable from `propose_and_eval_guard` (the suite is
checked non-empty) and modelled as 0. -/
structure Agg where
  feasible_count : Nat
  avg_cost : Rat
  n : Nat
deriving DecidableEq

/-- Model of `aggregate_metrics`. -/
def aggregate_metrics (results : List Metrics) : Agg :=
  if results.isEmpty then ⟨0, 0, 0⟩
  else
    ⟨(results.filter (fun r => r.feasible)).length,
      (results.foldl (fun acc r => acc + r.cost) 0) / results.length,
      results.length⟩

/-- Model of `default_accept_policy`. -/
def default_accept_policy (before after : Agg) : Bool :=
  decide (before.feasible_count < after.feasible_count) ||
    decide (after.avg_cost ≤ before.avg_cost - 1)

/-- Model of `run_golden_suite`: best metrics of one search call per task. -/
def run_golden_suite {P S : Type} [DecidableEq S]
    (rules : List (Graph → List (RuleResult Graph)))
    (evaluate : Graph → P → Metrics) (suite : List (Graph × P))
    (sigfn : Graph → S) (scorer : Metrics → Rat) (stop_pred : Metrics → Bool)
    (rand : Nat → Rat) (cfg : SearchConfig) : List Metrics :=
  suite.map (fun t =>
    (search t.1 rules (fun g => evaluate g t.2) sigfn scorer stop_pred rand
      cfg).2.1)

/-- Result tuple of `propose_and_eval_guard` plus the final state of the
rule-graph (which the source mutates in place). -/
structure ProposeResult where
  threshold : Option Rat
  accepted : Option Bool
  prov : List StepRec
  agg_before : Option Agg
  agg_after : Option Agg
  rg : Graph

/-- Model of `propose_and_eval_guard` (builder_core.py, lines 71-125):
compile, search the first golden task, mine its provenance, reduce to a
threshold (abort if none), evaluate the suite before, upsert the guard
onto the rule-graph, recompile, evaluate after, and apply the acceptance
policy.  The zero-argument golden-suite provider is applied once by the
source, so it is passed here as its result; each `search` call restarts
the random stream at index 0, modelling a configuration with a fixed
seed (no conclusion below depends on the drawn values). -/
def propose_and_eval_guard {H P S : Type} [DecidableEq S] (rg : Graph)
    (ctx : CompileContext H)
    (callHandler : H → Graph → String → List (PVal × PVal) →
      List (List (String × PVal)) → (Graph → Env → Bool) →
      (Graph → List (RuleResult Graph)))
    (evaluate : Graph → P → Metrics) (suite : List (Graph × P))
    (miner : List StepRec → List Rat) (guard_spec : GuardEditSpec)
    (cfg : SearchConfig) (sigfn : Graph → S) (scorer : Metrics → Rat)
    (stop_pred : Metrics → Bool) (rand : Nat → Rat) (reducer : String)
    (accept_policy : Agg → Agg → Bool) : Except PyErr ProposeResult :=
  match compile_rules_from_pgr rg ctx callHandler with
  | .error e => .error e
  | .ok rules0 =>
      match suite with
      | [] => .error (.valueError "Golden suite is empty.")
      | (g0, ep0) :: _ =>
          let prov := (search g0 rules0 (fun g => evaluate g ep0) sigfn
            scorer stop_pred rand cfg).2.2
          match reduce_threshold (miner prov) guard_spec.epsilon reducer with
          | .error e => .error e
          | .ok none => .ok ⟨none, none, prov, none, none, rg⟩
          | .ok (some t) =>
              let agg_before := aggregate_metrics (run_golden_suite rules0
                evaluate suite sigfn scorer stop_pred rand cfg)
              match upsert_threshold_guard rg guard_spec.rule_name
                  guard_spec.var guard_spec.key guard_spec.op (.pnum t) with
              | .error e => .error e
              | .ok up =>
                  match compile_rules_from_pgr up.2 ctx callHandler with
                  | .error e => .error e
                  | .ok rules1 =>
                      let agg_after := aggregate_metrics (run_golden_suite
                        rules1 evaluate suite sigfn scorer stop_pred rand cfg)
                      .ok ⟨some t, some (accept_policy agg_before agg_after),
                        prov, some agg_before, some agg_after, up.2⟩

/-! ## Reference-level model of `Graph.clone` (kernel.py, lines 49-53)

`clone` rebuilds the node table with `dict(v["props"])` — a one-level copy
of each property map — and copies the edge list with `list(self.edges)`.
The property VALUES are copied by reference: a nested container stored as
a property value is shared between original and clone.  This namespace
models exactly that with an explicit heap: mutable containers (dicts,
lists) live at numeric addresses, property values are either immutable
primitives or references, and mutation is heap update. -/

namespace Mem

/-- A Python property value slot: an immutable object, or a reference to a
mutable container in the heap. -/
inductive HVal : Type where
  | prim (p : PVal) : HVal
  | ref (a : Nat) : HVal
deriving DecidableEq

/-- Mutable heap objects: string-keyed dicts (property maps and nested
mappings) and lists (the graph's edge list; its elements, edge tuples,
are immutable). -/
inductive HObj : Type where
  | hdict (entries : List (String × HVal)) : HObj
  | hlist (items : List HVal) : HObj
deriving DecidableEq

structure Heap where
  objs : List (Nat × HObj)
  next : Nat

/-- Address lookup in an object table. -/
def hfind (objs : List (Nat × HObj)) (a : Nat) : Option HObj :=
  match objs with
  | [] => none
  | (b, o) :: rest => if b = a then some o else hfind rest a

/-- Address lookup in a heap. -/
def hget (h : Heap) (a : Nat) : Option HObj := hfind h.objs a

/-- In-place overwrite of an existing address. -/
def hsetList (objs : List (Nat × HObj)) (a : Nat) (o : HObj) :
    List (Nat × HObj) :=
  match objs with
  | [] => []
  | (b, o2) :: rest =>
      if b = a then (b, o) :: rest else (b, o2) :: hsetList rest a o

/-- In-place overwrite of an existing address in a heap. -/
def hset (h : Heap) (a : Nat) (o : HObj) : Heap :=
  ⟨hsetList h.objs a o, h.next⟩

/-- Allocation of a fresh object (returns the new heap and the address). -/
def halloc (h : Heap) (o : HObj) : Heap × Nat :=
  (⟨h.objs ++ [(h.next, o)], h.next + 1⟩, h.next)

/-- A graph node at the reference level: type tag plus the address of its
property dict. -/
structure HNode where
  ntype : String
  propsAddr : Nat
deriving DecidableEq

/-- A graph at the reference level: the node table (ids to nodes) plus the
address of its edge-list object. -/
structure HGraph where
  nodes : List (String × HNode)
  edgesAddr : Nat

/-- Entries of a property dict object, defaulting to empty. -/
def entriesOf : Option HObj → List (String × HVal)
  | some (.hdict es) => es
  | _ => []

/-- Node-table walk of `clone`: for each node, in order, allocate a fresh
property dict holding the same entries — values, references included,
copied as-is (`dict(v["props"])`). -/
def cloneNodes (h : Heap) :
    List (String × HNode) → Heap × List (String × HNode)
  | [] => (h, [])
  | (nid, n) :: rest =>
      let al := halloc h (.hdict (entriesOf (hget h n.propsAddr)))
      let r2 := cloneNodes al.1 rest
      (r2.1, (nid, ⟨n.ntype, al.2⟩) :: r2.2)

/-- Items of an edge-list object, defaulting to empty. -/
def itemsOf : Option HObj → List HVal
  | some (.hlist xs) => xs
  | _ => []

/-- Model of `Graph.clone` at the reference level: fresh property dicts
with shared values, and a fresh edge list with the same (immutable)
items. -/
def clone (h : Heap) (g : HGraph) : Heap × HGraph :=
  let cn := cloneNodes h g.nodes
  let ae := halloc cn.1 (.hlist (itemsOf (hget cn.1 g.edgesAddr)))
  (ae.1, ⟨cn.2, ae.2⟩)

/-- Top-level property write through a graph:
`g.nodes[nid]["props"][key] = v` (also the effect of `set_props`). -/
def setPropTop (h : Heap) (g : HGraph) (nid key : String) (v : HVal) : Heap :=
  match dictGet g.nodes nid with
  | none => h
  | some n =>
      match hget h n.propsAddr with
      | some (.hdict es) => hset h n.propsAddr (.hdict (dictSet es key v))
      | _ => h

/-- Edge append through a graph: `g.add_edge(src, etype, dst)` mutates the
edge-list object in place. -/
def addEdgeM (h : Heap) (g : HGraph) (src etype dst : String) : Heap :=
  match hget h g.edgesAddr with
  | some (.hlist xs) =>
      hset h g.edgesAddr
        (.hlist (xs ++ [.prim (.ptuple [.pstr src, .pstr etype, .pstr dst])]))
  | _ => h

/-- In-place write to a nested mapping object (`props[k1][k2] = v` after
reading the nested container out of a property value). -/
def setDictEntry (h : Heap) (a : Nat) (key : String) (v : HVal) : Heap :=
  match hget h a with
  | some (.hdict es) => hset h a (.hdict (dictSet es key v))
  | _ => h

/-- Read a node's property value through a graph. -/
def readProp (h : Heap) (g : HGraph) (nid key : String) : Option HVal :=
  match dictGet g.nodes nid with
  | none => none
  | some n =>
      match hget h n.propsAddr with
      | some (.hdict es) => dictGet es key
      | _ => none

/-- Read a graph's edge list. -/
def readEdges (h : Heap) (g : HGraph) : Option (List HVal) :=
  match hget h g.edgesAddr with
  | some (.hlist xs) => some xs
  | _ => none

/-- Read an entry of a nested mapping object. -/
def readNested (h : Heap) (a : Nat) (key : String) : Option HVal :=
  match hget h a with
  | some (.hdict es) => dictGet es key
  | _ => none

/-- Well-formedness: every allocated address is below the bump pointer,
addresses are unique, every node's property address holds a dict, and the
edge address holds a list. -/
structure WF (h : Heap) (g : HGraph) : Prop where
  heapBound : ∀ p ∈ h.objs, p.1 < h.next
  propsOk : ∀ p ∈ g.nodes, ∃ es, hget h p.2.propsAddr = some (.hdict es)
  edgesOk : ∃ xs, hget h g.edgesAddr = some (.hlist xs)

end Mem

/-! ## Theorems.  Claims C1-C10. -/

/-! ### C10: the miner's improvement filter versus `Provenance.log` -/

theorem mine_skip_of_no_delta (extract : String → Option Rat)
    (steps : List StepRec) (rule_name : String)
    (hd : ∀ s ∈ steps, s.delta_cost = none) :
    mine_prev_value extract steps rule_name true = [] := by
  unfold mine_prev_value
  induction steps with
  | nil => rfl
  | cons s rest ih =>
    have hs : s.delta_cost = none := hd s (List.mem_cons_self s rest)
    have hrest : ∀ s2 ∈ rest, s2.delta_cost = none :=
      fun s2 h2 => hd s2 (List.mem_cons_of_mem s h2)
    simp only [List.foldl_cons]
    have hbody :
        (if !(atFront (rule_name ++ "(").data s.rule.data) then ([] : List Rat)
          else if true &&
              !(match s.delta_cost with
                | some d => decide (d ≠ 0) && decide (0 < d)
                | none => false) then []
          else
            match extract s.rule with
            | some q => [] ++ [q]
            | none => []) = [] := by
      rw [hs]
      cases atFront (rule_name ++ "(").data s.rule.data <;> simp
    rw [hbody]
    exact ih hrest

theorem searchFinish_prov_delta {G S : Type} [DecidableEq S]
    (stop_pred : Metrics → Bool) (s : SState G S) (acc : ExpandAcc G S)
    (seen2 : List S) (bl : List (Cand G S))
    (h : ∀ st ∈ s.prov, st.delta_cost = none) :
    ∀ st ∈ (searchFinish stop_pred s acc seen2 bl).prov,
      st.delta_cost = none := by
  cases bl with
  | nil => exact h
  | cons b0 rest =>
    intro st hst
    simp only [searchFinish, provLog] at hst
    rcases List.mem_append.mp hst with hst | hst
    · exact h st hst
    · simp only [List.mem_singleton] at hst
      rw [hst]

theorem searchBody_prov_delta {G S : Type} [DecidableEq S]
    (stop_pred : Metrics → Bool) (cfg : SearchConfig) (s : SState G S)
    (acc : ExpandAcc G S) (h : ∀ st ∈ s.prov, st.delta_cost = none) :
    ∀ st ∈ (searchBody stop_pred cfg s acc).prov, st.delta_cost = none := by
  unfold searchBody
  split
  · exact h
  · exact searchFinish_prov_delta stop_pred s acc _ _ h

theorem searchStep_prov_delta {G S : Type} [DecidableEq S]
    (rules : List (G → List (RuleResult G))) (evaluate : G → Metrics)
    (sigfn : G → S) (scorer : Metrics → Rat) (stop_pred : Metrics → Bool)
    (rand : Nat → Rat) (cfg : SearchConfig) (s : SState G S)
    (h : ∀ st ∈ s.prov, st.delta_cost = none) :
    ∀ st ∈ (searchStep rules evaluate sigfn scorer stop_pred rand cfg s).prov,
      st.delta_cost = none := by
  unfold searchStep
  split
  · exact h
  · exact searchBody_prov_delta stop_pred cfg s _ h

theorem searchState_prov_delta {G S : Type} [DecidableEq S] (initial : G)
    (rules : List (G → List (RuleResult G))) (evaluate : G → Metrics)
    (sigfn : G → S) (scorer : Metrics → Rat) (stop_pred : Metrics → Bool)
    (rand : Nat → Rat) (cfg : SearchConfig) (k : Nat) :
    ∀ st ∈ (searchState initial rules evaluate sigfn scorer stop_pred rand
      cfg k).prov, st.delta_cost = none := by
  induction k with
  | zero =>
    intro st hst
    simp only [searchState, Function.iterate_zero_apply, searchInit,
      provLog, List.nil_append, List.mem_singleton] at hst
    rw [hst]
  | succ n ih =>
    intro st hst
    rw [searchState, Function.iterate_succ_apply'] at hst
    exact searchStep_prov_delta rules evaluate sigfn scorer stop_pred rand
      cfg _ ih st hst

/-- C10: every provenance step a search call logs carries only the keys
`rule` and `metrics` — `Provenance.log` never writes `delta_cost` — so
`mine_prev_value` with its default `require_improvement=True` filter
(which demands a truthy positive `delta_cost`) returns the empty list on
any search call's step list, for every rule-name pattern and every
possible regex/float extraction. -/
theorem miner_empty_on_search_provenance {G S : Type} [DecidableEq S]
    (initial : G) (rules : List (G → List (RuleResult G)))
    (evaluate : G → Metrics) (sigfn : G → S) (scorer : Metrics → Rat)
    (stop_pred : Metrics → Bool) (rand : Nat → Rat) (cfg : SearchConfig)
    (extract : String → Option Rat) (rule_name : String) :
    mine_prev_value extract
      (search initial rules evaluate sigfn scorer stop_pred rand cfg).2.2
      rule_name true = [] := by
  apply mine_skip_of_no_delta
  intro s hs
  exact searchState_prov_delta initial rules evaluate sigfn scorer stop_pred
    rand cfg cfg.iters s hs

/-! ### C3: binding no-reuse and empty candidate pools -/

theorem pkSet_snd_subset {α : Type} (d : List (PVal × α)) (k : PVal) (v : α)
    (x : α) (hx : x ∈ (pkSet d k v).map Prod.snd) :
    x = v ∨ x ∈ d.map Prod.snd := by
  induction d with
  | nil =>
    simp only [pkSet, List.map_cons, List.map_nil, List.mem_singleton] at hx
    exact Or.inl hx
  | cons p rest ih =>
    unfold pkSet at hx
    by_cases hk : p.1 = k
    · rw [if_pos hk] at hx
      simp only [List.map_cons, List.mem_cons] at hx
      rcases hx with hx | hx
      · exact Or.inl hx
      · exact Or.inr (by simp only [List.map_cons, List.mem_cons]; exact Or.inr hx)
    · rw [if_neg hk] at hx
      simp only [List.map_cons, List.mem_cons] at hx
      rcases hx with hx | hx
      · exact Or.inr (by simp only [List.map_cons, List.mem_cons]; exact Or.inl hx)
      · rcases ih hx with hx | hx
        · exact Or.inl hx
        · exact Or.inr (by simp only [List.map_cons, List.mem_cons]; exact Or.inr hx)

theorem pkSet_snd_nodup {α : Type} (d : List (PVal × α)) (k : PVal) (v : α)
    (hd : (d.map Prod.snd).Nodup) (hv : v ∉ d.map Prod.snd) :
    ((pkSet d k v).map Prod.snd).Nodup := by
  induction d with
  | nil => simp [pkSet]
  | cons p rest ih =>
    simp only [List.map_cons, List.nodup_cons, List.mem_cons] at hd hv
    push_neg at hv
    unfold pkSet
    by_cases hk : p.1 = k
    · rw [if_pos hk]
      simp only [List.map_cons, List.nodup_cons]
      exact ⟨fun hmem => hv.2 hmem, hd.2⟩
    · rw [if_neg hk]
      simp only [List.map_cons, List.nodup_cons]
      refine ⟨fun hmem => ?_, ih hd.2 hv.2⟩
      rcases pkSet_snd_subset rest k v p.2 hmem with h | h
      · exact hv.1 h.symm
      · exact hd.1 h

theorem extendEnvs_nodup (vname : PVal) (cands : List String)
    (envs : List Env) (h : ∀ env ∈ envs, (env.map Prod.snd).Nodup) :
    ∀ env ∈ extendEnvs vname cands envs, (env.map Prod.snd).Nodup := by
  intro env henv
  simp only [extendEnvs, List.mem_flatMap, List.mem_filterMap] at henv
  obtain ⟨e0, he0, nid, hnid, hcond⟩ := henv
  by_cases hin : nid ∈ e0.map Prod.snd
  · rw [if_pos hin] at hcond
    cases hcond
  · rw [if_neg hin] at hcond
    injection hcond with hcond
    rw [← hcond]
    exact pkSet_snd_nodup e0 vname nid (h e0 he0) hin

theorem foldl_extendEnvs_nodup (pools : List (PVal × List String)) :
    ∀ envs : List Env, (∀ env ∈ envs, (env.map Prod.snd).Nodup) →
      ∀ env ∈ pools.foldl (fun envs p => extendEnvs p.1 p.2 envs) envs,
        (env.map Prod.snd).Nodup := by
  induction pools with
  | nil => intro envs h; exact h
  | cons p rest ih =>
    intro envs h
    simp only [List.foldl_cons]
    exact ih _ (extendEnvs_nodup p.1 p.2 envs h)

theorem match_var_bindings_nodup (g : Graph)
    (vars_spec : List (List (String × PVal))) :
    ∀ env ∈ match_var_bindings g vars_spec, (env.map Prod.snd).Nodup := by
  unfold match_var_bindings
  cases hb : buildPools g vars_spec with
  | none => intro env henv; cases henv
  | some pools =>
    apply foldl_extendEnvs_nodup
    intro env henv
    simp only [List.mem_singleton] at henv
    rw [henv]
    exact List.nodup_nil

theorem match_vars_std_nodup (g : Graph) :
    ∀ (vars_spec : List (List (String × PVal))) (envs : List Env),
      (∀ env ∈ envs, (env.map Prod.snd).Nodup) →
      ∀ env ∈ match_vars_std g vars_spec envs, (env.map Prod.snd).Nodup := by
  intro vars_spec
  induction vars_spec with
  | nil => intro envs h; exact h
  | cons vs rest ih =>
    intro envs h
    unfold match_vars_std
    set envs2 := extendEnvs ((dictGet vs "var").getD .pnone)
      (if pyTruthy ((dictGet vs "var").getD .pnone) &&
          pyTruthy ((dictGet vs "type").getD .pnone) then
        varCands g ((dictGet vs "type").getD .pnone)
      else []) envs with henvs2
    have h2 : ∀ env ∈ envs2, (env.map Prod.snd).Nodup := by
      rw [henvs2]
      exact extendEnvs_nodup _ _ envs h
    by_cases he : envs2.isEmpty
    · rw [if_pos he]; exact h2
    · rw [if_neg he]; exact ih envs2 h2

theorem extendEnvs_nil_cands (vname : PVal) (envs : List Env) :
    extendEnvs vname [] envs = [] := by
  simp [extendEnvs]

theorem buildPools_none_of_empty (g : Graph)
    (vars_spec : List (List (String × PVal)))
    (vs : List (String × PVal)) (hmem : vs ∈ vars_spec)
    (hv : pyTruthy ((dictGet vs "var").getD .pnone) = true)
    (ht : pyTruthy ((dictGet vs "type").getD .pnone) = true)
    (hc : varCands g ((dictGet vs "type").getD .pnone) = []) :
    buildPools g vars_spec = none := by
  induction vars_spec with
  | nil => cases hmem
  | cons vs0 rest ih =>
    rcases List.mem_cons.mp hmem with h | h
    · subst h
      simp only [buildPools]
      rw [hv, ht, hc]
      simp
    · simp only [buildPools]
      by_cases h0 : (pyTruthy ((dictGet vs0 "var").getD .pnone) &&
          pyTruthy ((dictGet vs0 "type").getD .pnone)) = true
      · rw [if_pos h0]
        by_cases hce : (varCands g ((dictGet vs0 "type").getD .pnone)).isEmpty
        · rw [if_pos hce]
        · rw [if_neg hce, ih h]
          rfl
      · rw [if_neg h0]

theorem match_vars_std_empty_of_empty (g : Graph) :
    ∀ (vars_spec : List (List (String × PVal))) (envs : List Env)
      (vs : List (String × PVal)), vs ∈ vars_spec →
      varCands g ((dictGet vs "type").getD .pnone) = [] →
      match_vars_std g vars_spec envs = [] := by
  intro vars_spec
  induction vars_spec with
  | nil => intro envs vs hmem; cases hmem
  | cons vs0 rest ih =>
    intro envs vs hmem hc
    rcases List.mem_cons.mp hmem with h | h
    · subst h
      simp only [match_vars_std]
      have hcands :
          (if pyTruthy ((dictGet vs "var").getD .pnone) &&
              pyTruthy ((dictGet vs "type").getD .pnone) then
            varCands g ((dictGet vs "type").getD .pnone)
          else []) = [] := by
        by_cases h0 : (pyTruthy ((dictGet vs "var").getD .pnone) &&
            pyTruthy ((dictGet vs "type").getD .pnone)) = true
        · rw [if_pos h0, hc]
        · rw [if_neg h0]
      rw [hcands, extendEnvs_nil_cands]
      simp
    · simp only [match_vars_std]
      set envs2 := extendEnvs ((dictGet vs0 "var").getD .pnone)
        (if pyTruthy ((dictGet vs0 "var").getD .pnone) &&
            pyTruthy ((dictGet vs0 "type").getD .pnone) then
          varCands g ((dictGet vs0 "type").getD .pnone)
        else []) envs
      by_cases he : envs2.isEmpty
      · rw [if_pos he]
        exact List.isEmpty_iff.mp he
      · rw [if_neg he]
        exact ih envs2 vs h hc

/-- C3: (i) every binding environment either matcher produces assigns
pairwise distinct node ids to its variables (the bound values are
duplicate-free, so no two distinct variables share a node); and (ii) if
some declared pattern variable (with truthy name and type) has zero
candidate nodes of its required type, both matchers produce zero
bindings. -/
theorem binding_no_reuse_and_empty_pool (g : Graph)
    (vars_spec : List (List (String × PVal))) :
    (∀ env ∈ match_var_bindings g vars_spec, (env.map Prod.snd).Nodup) ∧
    (∀ env ∈ match_vars_std_main g vars_spec, (env.map Prod.snd).Nodup) ∧
    (∀ vs ∈ vars_spec,
      pyTruthy ((dictGet vs "var").getD .pnone) = true →
      pyTruthy ((dictGet vs "type").getD .pnone) = true →
      varCands g ((dictGet vs "type").getD .pnone) = [] →
      match_var_bindings g vars_spec = [] ∧
        match_vars_std_main g vars_spec = []) := by
  refine ⟨match_var_bindings_nodup g vars_spec, ?_, ?_⟩
  · apply match_vars_std_nodup
    intro env henv
    simp only [List.mem_singleton] at henv
    rw [henv]
    exact List.nodup_nil
  · intro vs hmem hv ht hc
    constructor
    · unfold match_var_bindings
      rw [buildPools_none_of_empty g vars_spec vs hmem hv ht hc]
    · exact match_vars_std_empty_of_empty g vars_spec _ vs hmem hc

/-- Witness for C3 at a concrete input: two variables of type `"T"` over a
two-node graph — the produced bindings never reuse a node — and a
variable of type `"U"` with no candidates kills all bindings. -/
theorem binding_no_reuse_witness :
    (∀ env ∈ match_var_bindings
        ⟨[("a", ⟨"T", []⟩), ("b", ⟨"T", []⟩)], []⟩
        [[("var", .pstr "x"), ("type", .pstr "T")],
          [("var", .pstr "y"), ("type", .pstr "T")]],
      (env.map Prod.snd).Nodup) ∧
    (match_var_bindings ⟨[("a", ⟨"T", []⟩), ("b", ⟨"T", []⟩)], []⟩
        [[("var", .pstr "x"), ("type", .pstr "U")]] = [] ∧
      match_vars_std_main ⟨[("a", ⟨"T", []⟩), ("b", ⟨"T", []⟩)], []⟩
        [[("var", .pstr "x"), ("type", .pstr "U")]] = []) :=
  ⟨(binding_no_reuse_and_empty_pool
      ⟨[("a", ⟨"T", []⟩), ("b", ⟨"T", []⟩)], []⟩
      [[("var", .pstr "x"), ("type", .pstr "T")],
        [("var", .pstr "y"), ("type", .pstr "T")]]).1,
    (binding_no_reuse_and_empty_pool
        ⟨[("a", ⟨"T", []⟩), ("b", ⟨"T", []⟩)], []⟩
        [[("var", .pstr "x"), ("type", .pstr "U")]]).2.2
      [("var", .pstr "x"), ("type", .pstr "U")] (by decide) (by decide)
      (by decide) (by decide)⟩

/-! ### C4: guard predicates never raise and fail closed -/

theorem guard_pred_false_of_mem (guards : List (List (String × PVal)))
    (gd : List (String × PVal)) (g : Graph) (env : Env)
    (hmem : gd ∈ guards) (hf : eval_one_guard gd g env = false) :
    make_guard_predicate guards g env = false := by
  have hne : guards.isEmpty = false := by
    cases guards
    · cases hmem
    · rfl
  simp only [make_guard_predicate, hne, Bool.false_eq_true, if_false]
  exact List.all_eq_false.mpr ⟨gd, hmem, by simp [hf]⟩

theorem eval_one_guard_unbound (gd : List (String × PVal)) (g : Graph)
    (env : Env) (hv : ((dictGet gd "var").getD .pnone) ≠ .pnone)
    (hl : pkGet env ((dictGet gd "var").getD .pnone) = none) :
    eval_one_guard gd g env = false := by
  simp only [eval_one_guard]
  rw [if_neg hv, hl]

theorem eval_one_guard_missing_node (gd : List (String × PVal)) (g : Graph)
    (env : Env) (nid : String)
    (hv : ((dictGet gd "var").getD .pnone) ≠ .pnone)
    (hl : pkGet env ((dictGet gd "var").getD .pnone) = some nid)
    (hn : g.has_node nid = false) :
    eval_one_guard gd g env = false := by
  simp only [eval_one_guard]
  rw [if_neg hv, hl]
  simp [hn]

theorem eval_one_guard_op_error (gd : List (String × PVal)) (g : Graph)
    (env : Env) (nid : String)
    (hv : ((dictGet gd "var").getD .pnone) ≠ .pnone)
    (hl : pkGet env ((dictGet gd "var").getD .pnone) = some nid)
    (hn : g.has_node nid = true)
    (he : op_eval (propGetVal (g.propsD nid) ((dictGet gd "key").getD .pnone))
        ((dictGet gd "op").getD .pnone)
        ((dictGet gd "value").getD .pnone) = .error ()) :
    eval_one_guard gd g env = false := by
  simp only [eval_one_guard]
  rw [if_neg hv, hl]
  simp [hn, he]

/-- C4: the compiled guard predicate is a total Boolean function (the
comparison's exceptions are explicit `Except.error` values of `op_eval`,
always caught): with no guards it is constantly true, and any guard whose
variable is unbound in the environment, or whose referenced node is absent
from the graph, or whose comparison raises, forces the whole predicate to
false. -/
theorem guard_fail_closed :
    (∀ (g : Graph) (env : Env), make_guard_predicate [] g env = true) ∧
    (∀ (guards : List (List (String × PVal))) (gd : List (String × PVal))
      (g : Graph) (env : Env), gd ∈ guards →
      ((dictGet gd "var").getD .pnone) ≠ .pnone →
      pkGet env ((dictGet gd "var").getD .pnone) = none →
      make_guard_predicate guards g env = false) ∧
    (∀ (guards : List (List (String × PVal))) (gd : List (String × PVal))
      (g : Graph) (env : Env) (nid : String), gd ∈ guards →
      ((dictGet gd "var").getD .pnone) ≠ .pnone →
      pkGet env ((dictGet gd "var").getD .pnone) = some nid →
      g.has_node nid = false →
      make_guard_predicate guards g env = false) ∧
    (∀ (guards : List (List (String × PVal))) (gd : List (String × PVal))
      (g : Graph) (env : Env) (nid : String), gd ∈ guards →
      ((dictGet gd "var").getD .pnone) ≠ .pnone →
      pkGet env ((dictGet gd "var").getD .pnone) = some nid →
      g.has_node nid = true →
      op_eval (propGetVal (g.propsD nid) ((dictGet gd "key").getD .pnone))
          ((dictGet gd "op").getD .pnone)
          ((dictGet gd "value").getD .pnone) = .error () →
      make_guard_predicate guards g env = false) := by
  refine ⟨fun g env => by simp [make_guard_predicate], ?_, ?_, ?_⟩
  · intro guards gd g env hmem hv hl
    exact guard_pred_false_of_mem guards gd g env hmem
      (eval_one_guard_unbound gd g env hv hl)
  · intro guards gd g env nid hmem hv hl hn
    exact guard_pred_false_of_mem guards gd g env hmem
      (eval_one_guard_missing_node gd g env nid hv hl hn)
  · intro guards gd g env nid hmem hv hl hn he
    exact guard_pred_false_of_mem guards gd g env hmem
      (eval_one_guard_op_error gd g env nid hv hl hn he)

/-- Witness for C4 at concrete inputs: an unbound variable, a missing
node, and an ill-typed comparison (a number against a string) each force
the predicate to false, and the empty guard list passes. -/
theorem guard_fail_closed_witness :
    make_guard_predicate [] ⟨[], []⟩ [] = true ∧
    make_guard_predicate [[("var", .pstr "x"), ("key", .pstr "len"),
        ("op", .pstr "<"), ("value", .pnum 1)]] ⟨[], []⟩ [] = false ∧
    make_guard_predicate [[("var", .pstr "x"), ("key", .pstr "len"),
        ("op", .pstr "<"), ("value", .pnum 1)]] ⟨[], []⟩
      [(.pstr "x", "a")] = false ∧
    make_guard_predicate [[("var", .pstr "x"), ("key", .pstr "len"),
        ("op", .pstr "<"), ("value", .pstr "w")]]
      ⟨[("a", ⟨"T", [("len", .pnum 2)]⟩)], []⟩ [(.pstr "x", "a")] = false :=
  ⟨guard_fail_closed.1 ⟨[], []⟩ [],
    guard_fail_closed.2.1 _ [("var", .pstr "x"), ("key", .pstr "len"),
        ("op", .pstr "<"), ("value", .pnum 1)] ⟨[], []⟩ []
      (by decide) (by decide) (by decide),
    guard_fail_closed.2.2.1 _ [("var", .pstr "x"), ("key", .pstr "len"),
        ("op", .pstr "<"), ("value", .pnum 1)] ⟨[], []⟩ [(.pstr "x", "a")] "a"
      (by decide) (by decide) (by decide) (by decide),
    guard_fail_closed.2.2.2 _ [("var", .pstr "x"), ("key", .pstr "len"),
        ("op", .pstr "<"), ("value", .pstr "w")]
      ⟨[("a", ⟨"T", [("len", .pnum 2)]⟩)], []⟩ [(.pstr "x", "a")] "a"
      (by decide) (by decide) (by decide) (by decide) (by rfl)⟩

/-! ### C5: compilation errors and the one-function-per-rule count -/

/-- Kind property of a node (`props.get("kind")`, absence as `None`). -/
def kindOf (node : PNode) : PVal := (dictGet node.props "kind").getD .pnone

/-- Handler lookup for a kind value (the registry is a string-keyed dict,
so a truthy non-string kind finds no handler). -/
def handlerFor {H : Type} (ctx : CompileContext H) (kind : PVal) : Option H :=
  match kind with
  | .pstr k => dictGet ctx.registry k
  | _ => none

/-- A node the compiler actually processes: a `Rule` node with truthy
`kind` (the source silently skips the rest). -/
def isActiveRule (p : String × PNode) : Bool :=
  p.2.ntype == "Rule" && pyTruthy (kindOf p.2)

/-- Readability of a rule's attachments: the three accessor walks
succeed (no dangling `has_param`/`has_var`/`has_guard` edges, and every
`Param` node carries `key` and `value`). -/
def attachmentsOk (rg : Graph) (p : String × PNode) : Prop :=
  (∃ v, get_params rg p.1 = .ok v) ∧ (∃ v, get_vars rg p.1 = .ok v) ∧
    (∃ v, get_guards rg p.1 = .ok v)

theorem compile_go_ok {H F : Type} (rg : Graph) (ctx : CompileContext H)
    (ch : H → Graph → String → List (PVal × PVal) →
      List (List (String × PVal)) → (Graph → Env → Bool) → F) :
    ∀ (nodes : List (String × PNode)) (fns : List F),
      (∀ p ∈ nodes, isActiveRule p = true →
        attachmentsOk rg p ∧ (handlerFor ctx (kindOf p.2)).isSome = true) →
      ∃ out, compile_go rg ctx ch nodes fns = .ok out ∧
        out.length = fns.length + (nodes.filter isActiveRule).length := by
  intro nodes
  induction nodes with
  | nil => intro fns _; exact ⟨fns, rfl, by simp⟩
  | cons p rest ih =>
    intro fns h
    obtain ⟨rid, node⟩ := p
    by_cases hr : node.ntype = "Rule"
    · by_cases hk : pyTruthy (kindOf node) = true
      · have hact : isActiveRule (rid, node) = true := by
          simp [isActiveRule, hr, hk]
        obtain ⟨⟨⟨pv, hpv⟩, ⟨vv, hvv⟩, ⟨gv, hgv⟩⟩, hh⟩ :=
          h (rid, node) (List.mem_cons_self _ _) hact
        obtain ⟨hv, hhv⟩ := Option.isSome_iff_exists.mp hh
        have hrest : ∀ q ∈ rest, isActiveRule q = true →
            attachmentsOk rg q ∧ (handlerFor ctx (kindOf q.2)).isSome = true :=
          fun q hq => h q (List.mem_cons_of_mem _ hq)
        obtain ⟨out, hout, hlen⟩ := ih (fns ++ [ch hv rg rid pv vv
          (make_guard_predicate gv)]) hrest
        refine ⟨out, ?_, ?_⟩
        · simp only [compile_go, if_pos hr]
          rw [show (dictGet node.props "kind").getD .pnone = kindOf node
            from rfl, hk]
          simp only [if_true]
          rw [show get_params rg rid = .ok pv from hpv]
          rw [show get_vars rg rid = .ok vv from hvv]
          rw [show get_guards rg rid = .ok gv from hgv]
          rw [show (match kindOf node with
              | .pstr k => dictGet ctx.registry k
              | _ => none) = some hv from hhv]
          exact hout
        · rw [hlen]
          simp only [List.filter_cons, hact]
          simp
          omega
      · have hact : isActiveRule (rid, node) = false := by
          simp [isActiveRule, hk]
        have hrest : ∀ q ∈ rest, isActiveRule q = true →
            attachmentsOk rg q ∧ (handlerFor ctx (kindOf q.2)).isSome = true :=
          fun q hq => h q (List.mem_cons_of_mem _ hq)
        obtain ⟨out, hout, hlen⟩ := ih fns hrest
        refine ⟨out, ?_, ?_⟩
        · simp only [compile_go, if_pos hr]
          rw [show (dictGet node.props "kind").getD .pnone = kindOf node
            from rfl]
          simp only [hk, Bool.false_eq_true, if_false]
          exact hout
        · rw [hlen]
          simp [List.filter_cons, hact]
    · have hact : isActiveRule (rid, node) = false := by
        simp [isActiveRule]
        intro h2
        exact absurd h2 hr
      have hrest : ∀ q ∈ rest, isActiveRule q = true →
          attachmentsOk rg q ∧ (handlerFor ctx (kindOf q.2)).isSome = true :=
        fun q hq => h q (List.mem_cons_of_mem _ hq)
      obtain ⟨out, hout, hlen⟩ := ih fns hrest
      refine ⟨out, ?_, ?_⟩
      · simp only [compile_go, if_neg hr]
        exact hout
      · rw [hlen]
        simp [List.filter_cons, hact]

theorem compile_go_error {H F : Type} (rg : Graph) (ctx : CompileContext H)
    (ch : H → Graph → String → List (PVal × PVal) →
      List (List (String × PVal)) → (Graph → Env → Bool) → F) :
    ∀ (nodes : List (String × PNode)) (fns : List F),
      (∀ p ∈ nodes, isActiveRule p = true → attachmentsOk rg p) →
      (∃ p ∈ nodes, isActiveRule p = true ∧
        handlerFor ctx (kindOf p.2) = none) →
      ∃ e, compile_go rg ctx ch nodes fns = .error e := by
  intro nodes
  induction nodes with
  | nil =>
    intro fns _ hbad
    obtain ⟨p, hp, _⟩ := hbad
    cases hp
  | cons p rest ih =>
    intro fns hwf hbad
    obtain ⟨rid, node⟩ := p
    have hrest : ∀ q ∈ rest, isActiveRule q = true → attachmentsOk rg q :=
      fun q hq => hwf q (List.mem_cons_of_mem _ hq)
    by_cases hr : node.ntype = "Rule"
    · by_cases hk : pyTruthy (kindOf node) = true
      · have hact : isActiveRule (rid, node) = true := by
          simp [isActiveRule, hr, hk]
        obtain ⟨⟨pv, hpv⟩, ⟨vv, hvv⟩, ⟨gv, hgv⟩⟩ :=
          hwf (rid, node) (List.mem_cons_self _ _) hact
        cases hh : handlerFor ctx (kindOf node) with
        | none =>
          refine ⟨.valueError ("No handler registered for kind (rule id: " ++
            rid ++ ")"), ?_⟩
          simp only [compile_go, if_pos hr]
          rw [show (dictGet node.props "kind").getD .pnone = kindOf node
            from rfl, hk]
          simp only [if_true]
          rw [show get_params rg rid = .ok pv from hpv]
          rw [show get_vars rg rid = .ok vv from hvv]
          rw [show get_guards rg rid = .ok gv from hgv]
          rw [show (match kindOf node with
              | .pstr k => dictGet ctx.registry k
              | _ => none) = none from hh]
        | some hv =>
          have hbad2 : ∃ p ∈ rest, isActiveRule p = true ∧
              handlerFor ctx (kindOf p.2) = none := by
            obtain ⟨q, hq, hqa, hqn⟩ := hbad
            rcases List.mem_cons.mp hq with hq | hq
            · exfalso
              rw [hq] at hqn
              rw [hqn] at hh
              cases hh
            · exact ⟨q, hq, hqa, hqn⟩
          obtain ⟨e, he⟩ := ih _ hrest hbad2
          refine ⟨e, ?_⟩
          simp only [compile_go, if_pos hr]
          rw [show (dictGet node.props "kind").getD .pnone = kindOf node
            from rfl, hk]
          simp only [if_true]
          rw [show get_params rg rid = .ok pv from hpv]
          rw [show get_vars rg rid = .ok vv from hvv]
          rw [show get_guards rg rid = .ok gv from hgv]
          rw [show (match kindOf node with
              | .pstr k => dictGet ctx.registry k
              | _ => none) = some hv from hh]
          exact he
      · have hbad2 : ∃ p ∈ rest, isActiveRule p = true ∧
            handlerFor ctx (kindOf p.2) = none := by
          obtain ⟨q, hq, hqa, hqn⟩ := hbad
          rcases List.mem_cons.mp hq with hq | hq
          · exfalso
            rw [hq] at hqa
            simp [isActiveRule, hk] at hqa
          · exact ⟨q, hq, hqa, hqn⟩
        obtain ⟨e, he⟩ := ih fns hrest hbad2
        refine ⟨e, ?_⟩
        simp only [compile_go, if_pos hr]
        rw [show (dictGet node.props "kind").getD .pnone = kindOf node
          from rfl]
        simp only [hk, Bool.false_eq_true, if_false]
        exact he
    · have hbad2 : ∃ p ∈ rest, isActiveRule p = true ∧
          handlerFor ctx (kindOf p.2) = none := by
        obtain ⟨q, hq, hqa, hqn⟩ := hbad
        rcases List.mem_cons.mp hq with hq | hq
        · exfalso
          rw [hq] at hqa
          simp [isActiveRule] at hqa
          exact hr hqa.1
        · exact ⟨q, hq, hqa, hqn⟩
      obtain ⟨e, he⟩ := ih fns hrest hbad2
      refine ⟨e, ?_⟩
      simp only [compile_go, if_neg hr]
      exact he

/-- C5 (amended): on a rule-graph whose active rules (`Rule` nodes with a
truthy `kind`) have readable attachments, compilation raises exactly when
some active rule's kind has no registered handler; on success it returns
exactly one rewrite function per ACTIVE rule node.  `Rule` nodes with a
missing or falsy `kind` are silently skipped — see the counterexample
below for the claim as stated. -/
theorem compile_rules_characterization {H F : Type} (rg : Graph)
    (ctx : CompileContext H)
    (ch : H → Graph → String → List (PVal × PVal) →
      List (List (String × PVal)) → (Graph → Env → Bool) → F)
    (hwf : ∀ p ∈ rg.nodes, isActiveRule p = true → attachmentsOk rg p) :
    ((∃ p ∈ rg.nodes, isActiveRule p = true ∧
        handlerFor ctx (kindOf p.2) = none) ↔
      ∃ e, compile_rules_from_pgr rg ctx ch = .error e) ∧
    (∀ fns, compile_rules_from_pgr rg ctx ch = .ok fns →
      fns.length = (rg.nodes.filter isActiveRule).length) := by
  constructor
  · constructor
    · intro hbad
      exact compile_go_error rg ctx ch rg.nodes [] hwf hbad
    · intro ⟨e, he⟩
      by_contra hno
      push_neg at hno
      have hall : ∀ p ∈ rg.nodes, isActiveRule p = true →
          attachmentsOk rg p ∧ (handlerFor ctx (kindOf p.2)).isSome = true := by
        intro p hp ha
        refine ⟨hwf p hp ha, ?_⟩
        cases hh : handlerFor ctx (kindOf p.2) with
        | none => exact absurd hh (hno p hp ha)
        | some hv => rfl
      obtain ⟨out, hout, _⟩ := compile_go_ok rg ctx ch rg.nodes [] hall
      rw [show compile_rules_from_pgr rg ctx ch =
        compile_go rg ctx ch rg.nodes [] from rfl, hout] at he
      cases he
  · intro fns hok
    by_cases hbad : ∃ p ∈ rg.nodes, isActiveRule p = true ∧
        handlerFor ctx (kindOf p.2) = none
    · obtain ⟨e, he⟩ := compile_go_error rg ctx ch rg.nodes [] hwf hbad
      rw [show compile_rules_from_pgr rg ctx ch =
        compile_go rg ctx ch rg.nodes [] from rfl, he] at hok
      cases hok
    · push_neg at hbad
      have hall : ∀ p ∈ rg.nodes, isActiveRule p = true →
          attachmentsOk rg p ∧ (handlerFor ctx (kindOf p.2)).isSome = true := by
        intro p hp ha
        refine ⟨hwf p hp ha, ?_⟩
        cases hh : handlerFor ctx (kindOf p.2) with
        | none => exact absurd hh (hbad p hp ha)
        | some hv => rfl
      obtain ⟨out, hout, hlen⟩ := compile_go_ok rg ctx ch rg.nodes [] hall
      rw [show compile_rules_from_pgr rg ctx ch =
        compile_go rg ctx ch rg.nodes [] from rfl, hout] at hok
      injection hok with hok
      rw [← hok, hlen]
      simp

/-- Counterexample to C5 as stated: a rule-graph with a single `Rule`
node that has NO `kind` property compiles without error to an EMPTY
function list (one Rule node, zero functions, no configuration error),
because `compile_rules_from_pgr` silently skips rules with a falsy
`kind`. -/
theorem compile_kindless_rule_counterexample :
    @compile_rules_from_pgr Unit Nat
        ⟨[("r1", ⟨"Rule", [("name", .pstr "r")]⟩)], []⟩ ⟨[]⟩
        (fun _ _ _ _ _ _ => 0) = .ok [] ∧
    ((⟨[("r1", ⟨"Rule", [("name", .pstr "r")]⟩)], []⟩ : Graph).nodes.filter
        (fun p => p.2.ntype == "Rule")).length = 1 :=
  ⟨rfl, rfl⟩

/-- Witness for the amended C5 at a concrete input: one active rule with a
registered handler compiles to exactly one function. -/
theorem compile_rules_characterization_witness :
    ([0] : List Nat).length =
      ((⟨[("r1", ⟨"Rule", [("name", .pstr "r"), ("kind", .pstr "k")]⟩)],
          []⟩ : Graph).nodes.filter isActiveRule).length :=
  (compile_rules_characterization
      ⟨[("r1", ⟨"Rule", [("name", .pstr "r"), ("kind", .pstr "k")]⟩)], []⟩
      ⟨[("k", ())]⟩ (fun _ _ _ _ _ _ => (0 : Nat))
      (by
        intro p hp _
        simp only [List.mem_cons, List.not_mem_nil, or_false] at hp
        rw [hp]
        exact ⟨⟨[], rfl⟩, ⟨[], rfl⟩, ⟨[], rfl⟩⟩)).2 [0] rfl

/-! ### C9: guard upsert -/

theorem dictGet_dictSet {α : Type} (d : List (String × α)) (k : String)
    (v : α) (q : String) :
    dictGet (dictSet d k v) q = if k = q then some v else dictGet d q := by
  induction d with
  | nil =>
    simp only [dictSet, dictGet]
  | cons p rest ih =>
    obtain ⟨k2, v2⟩ := p
    by_cases hp : k2 = k
    · subst hp
      simp only [dictSet, if_pos rfl, dictGet]
      by_cases h : k2 = q
      · simp [h]
      · simp [h]
    · simp only [dictSet, if_neg hp, dictGet]
      by_cases h : k2 = q
      · have hkq : ¬ k = q := fun hkq => hp (h.trans hkq.symm)
        simp [h, hkq]
      · simp [h, ih]

theorem dictSet_append_of_missing {α : Type} (d : List (String × α))
    (k : String) (v : α) (h : dictGet d k = none) :
    dictSet d k v = d ++ [(k, v)] := by
  induction d with
  | nil => rfl
  | cons p rest ih =>
    obtain ⟨k2, v2⟩ := p
    simp only [dictGet] at h
    by_cases hk : k2 = k
    · rw [if_pos hk] at h
      cases h
    · rw [if_neg hk] at h
      simp only [dictSet, if_neg hk, List.cons_append]
      rw [ih h]

theorem dictGet_append_left {α : Type} (d e : List (String × α)) (k : String)
    (x : α) (h : dictGet d k = some x) : dictGet (d ++ e) k = some x := by
  induction d with
  | nil => cases h
  | cons p rest ih =>
    obtain ⟨k2, v2⟩ := p
    simp only [dictGet] at h
    simp only [List.cons_append, dictGet]
    by_cases hk : k2 = k
    · rw [if_pos hk] at h ⊢
      exact h
    · rw [if_neg hk] at h ⊢
      exact ih h

theorem dictGet_append_fresh {α : Type} (d : List (String × α)) (k : String)
    (v : α) (h : dictGet d k = none) : dictGet (d ++ [(k, v)]) k = some v := by
  induction d with
  | nil => simp [dictGet]
  | cons p rest ih =>
    obtain ⟨k2, v2⟩ := p
    simp only [dictGet] at h
    simp only [List.cons_append, dictGet]
    by_cases hk : k2 = k
    · rw [if_pos hk] at h
      cases h
    · rw [if_neg hk] at h ⊢
      exact ih h

theorem find_rule_go_append (name : String) (d e : List (String × PNode))
    (r : String) (h : find_rule_id_by_name_go name d = some r) :
    find_rule_id_by_name_go name (d ++ e) = some r := by
  induction d with
  | nil => cases h
  | cons p rest ih =>
    obtain ⟨nid, n⟩ := p
    simp only [find_rule_id_by_name_go] at h
    simp only [List.cons_append, find_rule_id_by_name_go]
    by_cases hc : (n.ntype == "Rule" &&
        pyEq ((dictGet n.props "name").getD .pnone) (.pstr name)) = true
    · rw [if_pos hc] at h ⊢
      exact h
    · rw [if_neg hc] at h ⊢
      exact ih h

/-- One edge's contribution to the attached-matching-guard list. -/
def guardEdgeEntry (rg : Graph) (rid vname key op : String)
    (e : String × String × String) : Option (String × PVal) :=
  if e.1 = rid ∧ e.2.1 = "has_guard" then
    match dictGet rg.nodes e.2.2 with
    | some n =>
        if pyEq ((dictGet n.props "var").getD .pnone) (.pstr vname) &&
            pyEq ((dictGet n.props "key").getD .pnone) (.pstr key) &&
            pyEq ((dictGet n.props "op").getD .pnone) (.pstr op) then
          some (e.2.2, (dictGet n.props "value").getD .pnone)
        else none
    | none => none
  else none

/-- The `Guard` nodes attached to a rule via `has_guard` edges whose
`(var, key, op)` properties match, with their current values, one entry
per matching edge. -/
def matchingGuards (rg : Graph) (rid vname key op : String) :
    List (String × PVal) :=
  rg.edges.filterMap (guardEdgeEntry rg rid vname key op)

theorem findGuardTarget_of_no_match (rg : Graph) (rid vname key op : String) :
    ∀ es : List (String × String × String),
      (∀ e ∈ es, e.1 = rid → e.2.1 = "has_guard" →
        (dictGet rg.nodes e.2.2).isSome = true) →
      es.filterMap (guardEdgeEntry rg rid vname key op) = [] →
      findGuardTarget rg rid vname key op es = .ok none := by
  intro es
  induction es with
  | nil => intro _ _; rfl
  | cons e rest ih =>
    intro hd hf
    obtain ⟨src, et, dst⟩ := e
    have hnone : guardEdgeEntry rg rid vname key op (src, et, dst) = none := by
      cases hge2 : guardEdgeEntry rg rid vname key op (src, et, dst) with
      | none => rfl
      | some x =>
        rw [List.filterMap_cons, hge2] at hf
        cases hf
    have hrest : rest.filterMap (guardEdgeEntry rg rid vname key op) = [] := by
      rw [List.filterMap_cons, hnone] at hf
      exact hf
    have ihr := ih (fun e2 h2 => hd e2 (List.mem_cons_of_mem _ h2)) hrest
    simp only [findGuardTarget]
    by_cases hc : src = rid ∧ et = "has_guard"
    · rw [if_pos hc]
      have hs : (dictGet rg.nodes dst).isSome = true :=
        hd (src, et, dst) (List.mem_cons_self _ _) hc.1 hc.2
      obtain ⟨n, hn⟩ := Option.isSome_iff_exists.mp hs
      simp only [hn]
      cases hmb : (pyEq ((dictGet n.props "var").getD .pnone) (.pstr vname) &&
          pyEq ((dictGet n.props "key").getD .pnone) (.pstr key) &&
          pyEq ((dictGet n.props "op").getD .pnone) (.pstr op)) with
      | true =>
        exfalso
        simp [guardEdgeEntry, hc.1, hc.2, hn, hmb] at hnone
      | false =>
        simp only [hmb, Bool.false_eq_true, if_false]
        exact ihr
    · rw [if_neg hc]
      exact ihr

theorem guardEdgeEntry_congr (rgA rgB : Graph) (rid vname key op : String)
    (e : String × String × String)
    (h : e.1 = rid → e.2.1 = "has_guard" →
      dictGet rgB.nodes e.2.2 = dictGet rgA.nodes e.2.2) :
    guardEdgeEntry rgB rid vname key op e =
      guardEdgeEntry rgA rid vname key op e := by
  unfold guardEdgeEntry
  by_cases hc : e.1 = rid ∧ e.2.1 = "has_guard"
  · rw [if_pos hc, if_pos hc, h hc.1 hc.2]
  · rw [if_neg hc, if_neg hc]

theorem findGuardTarget_skip (rg : Graph) (rid vname key op : String) :
    ∀ es1 es2 : List (String × String × String),
      (∀ e ∈ es1, e.1 = rid → e.2.1 = "has_guard" →
        (dictGet rg.nodes e.2.2).isSome = true) →
      es1.filterMap (guardEdgeEntry rg rid vname key op) = [] →
      findGuardTarget rg rid vname key op (es1 ++ es2) =
        findGuardTarget rg rid vname key op es2 := by
  intro es1
  induction es1 with
  | nil => intro es2 _ _; rfl
  | cons e rest ih =>
    intro es2 hd hf
    obtain ⟨src, et, dst⟩ := e
    have hnone : guardEdgeEntry rg rid vname key op (src, et, dst) = none := by
      cases hge2 : guardEdgeEntry rg rid vname key op (src, et, dst) with
      | none => rfl
      | some x =>
        rw [List.filterMap_cons, hge2] at hf
        cases hf
    have hrest : rest.filterMap (guardEdgeEntry rg rid vname key op) = [] := by
      rw [List.filterMap_cons, hnone] at hf
      exact hf
    have ihr := ih es2 (fun e2 h2 => hd e2 (List.mem_cons_of_mem _ h2)) hrest
    rw [List.cons_append]
    simp only [findGuardTarget]
    by_cases hc : src = rid ∧ et = "has_guard"
    · rw [if_pos hc]
      have hs : (dictGet rg.nodes dst).isSome = true :=
        hd (src, et, dst) (List.mem_cons_self _ _) hc.1 hc.2
      obtain ⟨n, hn⟩ := Option.isSome_iff_exists.mp hs
      simp only [hn]
      cases hmb : (pyEq ((dictGet n.props "var").getD .pnone) (.pstr vname) &&
          pyEq ((dictGet n.props "key").getD .pnone) (.pstr key) &&
          pyEq ((dictGet n.props "op").getD .pnone) (.pstr op)) with
      | true =>
        exfalso
        simp [guardEdgeEntry, hc.1, hc.2, hn, hmb] at hnone
      | false =>
        simp only [hmb, Bool.false_eq_true, if_false]
        exact ihr
    · rw [if_neg hc]
      exact ihr

theorem pyEq_pstr_refl (s : String) : pyEq (.pstr s) (.pstr s) = true := by
  simp [pyEq]

/-- C9 (amended): starting from a rule whose id is nonempty, which has no
attached guard matching `(var, key, op)` (and, technically, whose
`has_guard` edges all resolve and whose derived guard-node id is unused),
upserting twice with values `v1` then `v2` succeeds both times and leaves
EXACTLY ONE matching guard node attached, holding the latest value `v2`;
and in general the upsert returns `False` — leaving the rule-graph
unchanged — exactly when the rule lookup yields no id or the empty-string
id (see the counterexample for the empty-id case the original claim
misses). -/
theorem guard_upsert_idempotent (rg : Graph) (name vname key op : String)
    (v1 v2 : PVal) (rid : String)
    (hfind : find_rule_id_by_name rg name = some rid)
    (hrid : rid ≠ "")
    (hmatch : matchingGuards rg rid vname key op = [])
    (hdang : ∀ e ∈ rg.edges, e.1 = rid → e.2.1 = "has_guard" →
      (dictGet rg.nodes e.2.2).isSome = true)
    (hfresh : dictGet rg.nodes
      (rid ++ ".guard." ++ vname ++ "." ++ key ++ "." ++ op) = none) :
    (∃ rg2,
      upsert_threshold_guard rg name vname key op v1 =
        .ok (true, add_guard rg rid vname key op v1) ∧
      upsert_threshold_guard (add_guard rg rid vname key op v1) name vname
        key op v2 = .ok (true, rg2) ∧
      matchingGuards rg2 rid vname key op =
        [(rid ++ ".guard." ++ vname ++ "." ++ key ++ "." ++ op, v2)]) ∧
    (∀ (rg0 : Graph) (nm vv kk oo : String) (val : PVal),
      (find_rule_id_by_name rg0 nm = none ∨
        find_rule_id_by_name rg0 nm = some "") ↔
      upsert_threshold_guard rg0 nm vv kk oo val = .ok (false, rg0)) := by
  constructor
  · set gid := rid ++ ".guard." ++ vname ++ "." ++ key ++ "." ++ op with hgid
    set gprops : List (String × PVal) := [("var", .pstr vname),
      ("key", .pstr key), ("op", .pstr op), ("value", v1)] with hgprops
    have hfgt0 : findGuardTarget rg rid vname key op rg.edges = .ok none :=
      findGuardTarget_of_no_match rg rid vname key op rg.edges hdang hmatch
    have hup1 : upsert_threshold_guard rg name vname key op v1 =
        .ok (true, add_guard rg rid vname key op v1) := by
      unfold upsert_threshold_guard
      simp only [hfind]
      rw [if_neg hrid, hfgt0]
    set rg1 := add_guard rg rid vname key op v1 with hrg1
    have hn1 : rg1.nodes = rg.nodes ++ [(gid, ⟨"Guard", gprops⟩)] := by
      show dictSet rg.nodes gid ⟨"Guard", gprops⟩ = _
      exact dictSet_append_of_missing rg.nodes gid _ hfresh
    have he1 : rg1.edges = rg.edges ++ [(rid, "has_guard", gid)] := rfl
    have hfind1 : find_rule_id_by_name rg1 name = some rid := by
      show find_rule_id_by_name_go name rg1.nodes = some rid
      rw [hn1]
      exact find_rule_go_append name rg.nodes _ rid hfind
    have hlook1 : dictGet rg1.nodes gid = some ⟨"Guard", gprops⟩ := by
      rw [hn1]
      exact dictGet_append_fresh rg.nodes gid _ hfresh
    have hstable1 : ∀ e ∈ rg.edges, e.1 = rid → e.2.1 = "has_guard" →
        dictGet rg1.nodes e.2.2 = dictGet rg.nodes e.2.2 := by
      intro e he h1 h2
      obtain ⟨n, hn⟩ := Option.isSome_iff_exists.mp (hdang e he h1 h2)
      rw [hn, hn1]
      exact dictGet_append_left rg.nodes _ _ n hn
    have hdang1 : ∀ e ∈ rg.edges, e.1 = rid → e.2.1 = "has_guard" →
        (dictGet rg1.nodes e.2.2).isSome = true := by
      intro e he h1 h2
      rw [hstable1 e he h1 h2]
      exact hdang e he h1 h2
    have hmatch1 : rg.edges.filterMap
        (guardEdgeEntry rg1 rid vname key op) = [] := by
      rw [List.filterMap_congr (fun e he =>
        guardEdgeEntry_congr rg rg1 rid vname key op e (hstable1 e he))]
      exact hmatch
    have hfgt1 : findGuardTarget rg1 rid vname key op rg1.edges =
        .ok (some gid) := by
      rw [he1, findGuardTarget_skip rg1 rid vname key op rg.edges _ hdang1
        hmatch1]
      simp [findGuardTarget, hlook1, hgprops, dictGet, pyEq_pstr_refl]
    have hup2 : upsert_threshold_guard rg1 name vname key op v2 =
        .ok (true, setNodePropRaw rg1 gid "value" v2) := by
      unfold upsert_threshold_guard
      simp only [hfind1]
      rw [if_neg hrid, hfgt1]
    set rg2 := setNodePropRaw rg1 gid "value" v2 with hrg2
    have hn2 : rg2.nodes = dictSet rg1.nodes gid
        ⟨"Guard", dictSet gprops "value" v2⟩ := by
      show (setNodePropRaw rg1 gid "value" v2).nodes = _
      unfold setNodePropRaw
      rw [hlook1]
    have he2 : rg2.edges = rg1.edges := by
      show (setNodePropRaw rg1 gid "value" v2).edges = _
      unfold setNodePropRaw
      rw [hlook1]
    refine ⟨rg2, hup1, hup2, ?_⟩
    unfold matchingGuards
    rw [he2, he1, List.filterMap_append]
    have hstable2 : ∀ e ∈ rg.edges, e.1 = rid → e.2.1 = "has_guard" →
        dictGet rg2.nodes e.2.2 = dictGet rg.nodes e.2.2 := by
      intro e he h1 h2
      obtain ⟨n, hn⟩ := Option.isSome_iff_exists.mp (hdang e he h1 h2)
      have hne : gid ≠ e.2.2 := by
        intro hcontra
        rw [← hcontra] at hn
        rw [hfresh] at hn
        cases hn
      rw [hn2, dictGet_dictSet, if_neg hne, hn1]
      rw [hn, dictGet_append_left rg.nodes _ _ n hn]
    have hold : rg.edges.filterMap (guardEdgeEntry rg2 rid vname key op)
        = [] := by
      rw [List.filterMap_congr (fun e he =>
        guardEdgeEntry_congr rg rg2 rid vname key op e (hstable2 e he))]
      exact hmatch
    rw [hold]
    have hlook2 : dictGet rg2.nodes gid =
        some ⟨"Guard", dictSet gprops "value" v2⟩ := by
      rw [hn2, dictGet_dictSet, if_pos rfl]
    simp [List.filterMap_cons, List.filterMap_nil, guardEdgeEntry, hlook2,
      hgprops, dictGet, dictSet, pyEq_pstr_refl]
  · intro rg0 nm vv kk oo val
    constructor
    · rintro (h | h)
      · unfold upsert_threshold_guard
        rw [h]
      · unfold upsert_threshold_guard
        rw [h]
        simp
    · intro h
      unfold upsert_threshold_guard at h
      cases hf : find_rule_id_by_name rg0 nm with
      | none => exact Or.inl rfl
      | some r =>
        simp only [hf] at h
        by_cases hr : r = ""
        · right
          rw [hr]
        · rw [if_neg hr] at h
          cases hT : findGuardTarget rg0 r vv kk oo rg0.edges with
          | error e => simp [hT] at h
          | ok w =>
            cases w with
            | none => simp [hT] at h
            | some dst => simp [hT] at h

/-- Counterexample to C9 as stated: a `Rule` node whose id is the EMPTY
string.  A rule named `"r"` exists (the lookup finds it), yet the upsert
returns `False` — `if not rid` treats the empty-string id as "no match" —
leaving the graph unchanged, refuting "returns false exactly when no Rule
node with the given display name exists". -/
theorem upsert_empty_id_counterexample :
    upsert_threshold_guard ⟨[("", ⟨"Rule", [("name", .pstr "r")]⟩)], []⟩
        "r" "x" "len" "<" (.pnum 1) =
      .ok (false, ⟨[("", ⟨"Rule", [("name", .pstr "r")]⟩)], []⟩) ∧
    find_rule_id_by_name ⟨[("", ⟨"Rule", [("name", .pstr "r")]⟩)], []⟩ "r" =
      some "" :=
  ⟨rfl, rfl⟩

/-- Witness for the amended C9 at a concrete input: a fresh rule, two
upserts with different values, exactly one matching guard with the latest
value. -/
theorem guard_upsert_idempotent_witness :
    ∃ rg2,
      upsert_threshold_guard
          ⟨[("r1", ⟨"Rule", [("name", .pstr "r"), ("kind", .pstr "k")]⟩)],
            []⟩ "r" "x" "len" "<" (.pnum 1) =
        .ok (true, add_guard
          ⟨[("r1", ⟨"Rule", [("name", .pstr "r"), ("kind", .pstr "k")]⟩)],
            []⟩ "r1" "x" "len" "<" (.pnum 1)) ∧
      upsert_threshold_guard (add_guard
          ⟨[("r1", ⟨"Rule", [("name", .pstr "r"), ("kind", .pstr "k")]⟩)],
            []⟩ "r1" "x" "len" "<" (.pnum 1)) "r" "x" "len" "<" (.pnum 2) =
        .ok (true, rg2) ∧
      matchingGuards rg2 "r1" "x" "len" "<" =
        [("r1" ++ ".guard." ++ "x" ++ "." ++ "len" ++ "." ++ "<",
          .pnum 2)] :=
  (guard_upsert_idempotent
      ⟨[("r1", ⟨"Rule", [("name", .pstr "r"), ("kind", .pstr "k")]⟩)], []⟩
      "r" "x" "len" "<" (.pnum 1) (.pnum 2) "r1" rfl (by decide) rfl
      (by intro e he; cases he) rfl).1

/-! ### C7: beam monotonicity of the tracked best -/

theorem searchFinish_best_cases {G S : Type} [DecidableEq S]
    (stop_pred : Metrics → Bool) (s : SState G S) (acc : ExpandAcc G S)
    (seen2 : List S) (bl : List (Cand G S)) :
    (searchFinish stop_pred s acc seen2 bl).best = s.best ∨
      (searchFinish stop_pred s acc seen2 bl).best.m.cost <
        s.best.m.cost := by
  cases bl with
  | nil => exact Or.inl rfl
  | cons b0 rest =>
    simp only [searchFinish]
    by_cases h : b0.m.cost < s.best.m.cost
    · right
      rw [if_pos h]
      exact h
    · left
      rw [if_neg h]

theorem searchBody_best_cases {G S : Type} [DecidableEq S]
    (stop_pred : Metrics → Bool) (cfg : SearchConfig) (s : SState G S)
    (acc : ExpandAcc G S) :
    (searchBody stop_pred cfg s acc).best = s.best ∨
      (searchBody stop_pred cfg s acc).best.m.cost < s.best.m.cost := by
  unfold searchBody
  split
  · exact Or.inl rfl
  · exact searchFinish_best_cases stop_pred s acc _ _

theorem searchStep_best_cases {G S : Type} [DecidableEq S]
    (rules : List (G → List (RuleResult G))) (evaluate : G → Metrics)
    (sigfn : G → S) (scorer : Metrics → Rat) (stop_pred : Metrics → Bool)
    (rand : Nat → Rat) (cfg : SearchConfig) (s : SState G S) :
    (searchStep rules evaluate sigfn scorer stop_pred rand cfg s).best =
        s.best ∨
      (searchStep rules evaluate sigfn scorer stop_pred rand cfg s).best.m.cost
        < s.best.m.cost := by
  unfold searchStep
  split
  · exact Or.inl rfl
  · exact searchBody_best_cases stop_pred cfg s _

theorem searchStep_best_le {G S : Type} [DecidableEq S]
    (rules : List (G → List (RuleResult G))) (evaluate : G → Metrics)
    (sigfn : G → S) (scorer : Metrics → Rat) (stop_pred : Metrics → Bool)
    (rand : Nat → Rat) (cfg : SearchConfig) (s : SState G S) :
    (searchStep rules evaluate sigfn scorer stop_pred rand cfg s).best.m.cost
      ≤ s.best.m.cost := by
  rcases searchStep_best_cases rules evaluate sigfn scorer stop_pred rand cfg
    s with h | h
  · rw [h]
  · exact le_of_lt h

theorem searchState_succ {G S : Type} [DecidableEq S] (initial : G)
    (rules : List (G → List (RuleResult G))) (evaluate : G → Metrics)
    (sigfn : G → S) (scorer : Metrics → Rat) (stop_pred : Metrics → Bool)
    (rand : Nat → Rat) (cfg : SearchConfig) (k : Nat) :
    searchState initial rules evaluate sigfn scorer stop_pred rand cfg
        (k + 1) =
      searchStep rules evaluate sigfn scorer stop_pred rand cfg
        (searchState initial rules evaluate sigfn scorer stop_pred rand
          cfg k) := by
  unfold searchState
  exact Function.iterate_succ_apply' _ k _

theorem searchState_best_antitone {G S : Type} [DecidableEq S] (initial : G)
    (rules : List (G → List (RuleResult G))) (evaluate : G → Metrics)
    (sigfn : G → S) (scorer : Metrics → Rat) (stop_pred : Metrics → Bool)
    (rand : Nat → Rat) (cfg : SearchConfig) (i j : Nat) (hij : i ≤ j) :
    (searchState initial rules evaluate sigfn scorer stop_pred rand cfg
        j).best.m.cost ≤
      (searchState initial rules evaluate sigfn scorer stop_pred rand cfg
        i).best.m.cost := by
  induction j with
  | zero =>
    have : i = 0 := Nat.le_zero.mp hij
    rw [this]
  | succ n ih =>
    rcases Nat.le_succ_iff_eq_or_le.mp (by omega : i ≤ n + 1) with h | h
    · subst h
      exact le_rfl
    · calc (searchState initial rules evaluate sigfn scorer stop_pred rand
            cfg (n + 1)).best.m.cost
          ≤ (searchState initial rules evaluate sigfn scorer stop_pred rand
            cfg n).best.m.cost := by
            rw [searchState_succ]
            exact searchStep_best_le rules evaluate sigfn scorer stop_pred
              rand cfg _
        _ ≤ _ := ih h

/-- C7: within one search call the tracked best cost is non-increasing
across iterations, the best is replaced only when an iteration's top
candidate has strictly lower cost (ties keep the earlier best), and the
returned best graph's cost is at most the initial graph's cost and at most
every intermediate tracked best's cost. -/
theorem beam_monotonicity {G S : Type} [DecidableEq S] (initial : G)
    (rules : List (G → List (RuleResult G))) (evaluate : G → Metrics)
    (sigfn : G → S) (scorer : Metrics → Rat) (stop_pred : Metrics → Bool)
    (rand : Nat → Rat) (cfg : SearchConfig) (i j : Nat) (hij : i ≤ j) :
    ((searchState initial rules evaluate sigfn scorer stop_pred rand cfg
        j).best.m.cost ≤
      (searchState initial rules evaluate sigfn scorer stop_pred rand cfg
        i).best.m.cost) ∧
    ((searchState initial rules evaluate sigfn scorer stop_pred rand cfg
        (i + 1)).best =
      (searchState initial rules evaluate sigfn scorer stop_pred rand cfg
        i).best ∨
      (searchState initial rules evaluate sigfn scorer stop_pred rand cfg
        (i + 1)).best.m.cost <
        (searchState initial rules evaluate sigfn scorer stop_pred rand cfg
          i).best.m.cost) ∧
    ((search initial rules evaluate sigfn scorer stop_pred rand cfg).2.1.cost
      ≤ (evaluate initial).cost) := by
  refine ⟨searchState_best_antitone initial rules evaluate sigfn scorer
    stop_pred rand cfg i j hij, ?_, ?_⟩
  · rw [searchState_succ]
    exact searchStep_best_cases rules evaluate sigfn scorer stop_pred rand
      cfg _
  · have h0 : (searchState initial rules evaluate sigfn scorer stop_pred
        rand cfg 0).best.m.cost = (evaluate initial).cost := rfl
    have := searchState_best_antitone initial rules evaluate sigfn scorer
      stop_pred rand cfg 0 cfg.iters (Nat.zero_le _)
    rw [h0] at this
    exact this

/-- Witness for C7 at a concrete input: a trivial search instance over
`Nat` graphs. -/
theorem beam_monotonicity_witness :
    ((searchState (0 : Nat) [] (fun _ => ⟨5, false, []⟩)
        (fun _ => (0 : Nat)) (fun m => m.cost) (fun _ => false) (fun _ => 0)
        ⟨2, 1, 0, 0, true⟩ 2).best.m.cost ≤
      (searchState (0 : Nat) [] (fun _ => ⟨5, false, []⟩)
        (fun _ => (0 : Nat)) (fun m => m.cost) (fun _ => false) (fun _ => 0)
        ⟨2, 1, 0, 0, true⟩ 0).best.m.cost) ∧
    ((searchState (0 : Nat) [] (fun _ => ⟨5, false, []⟩)
        (fun _ => (0 : Nat)) (fun m => m.cost) (fun _ => false) (fun _ => 0)
        ⟨2, 1, 0, 0, true⟩ 1).best =
      (searchState (0 : Nat) [] (fun _ => ⟨5, false, []⟩)
        (fun _ => (0 : Nat)) (fun m => m.cost) (fun _ => false) (fun _ => 0)
        ⟨2, 1, 0, 0, true⟩ 0).best ∨
      (searchState (0 : Nat) [] (fun _ => ⟨5, false, []⟩)
        (fun _ => (0 : Nat)) (fun m => m.cost) (fun _ => false) (fun _ => 0)
        ⟨2, 1, 0, 0, true⟩ 1).best.m.cost <
        (searchState (0 : Nat) [] (fun _ => ⟨5, false, []⟩)
          (fun _ => (0 : Nat)) (fun m => m.cost) (fun _ => false)
          (fun _ => 0) ⟨2, 1, 0, 0, true⟩ 0).best.m.cost) ∧
    ((search (0 : Nat) [] (fun _ => ⟨5, false, []⟩) (fun _ => (0 : Nat))
        (fun m => m.cost) (fun _ => false) (fun _ => 0)
        ⟨2, 1, 0, 0, true⟩).2.1.cost ≤
      ((fun _ => (⟨5, false, []⟩ : Metrics)) (0 : Nat)).cost) :=
  beam_monotonicity (0 : Nat) [] (fun _ => ⟨5, false, []⟩)
    (fun _ => (0 : Nat)) (fun m => m.cost) (fun _ => false) (fun _ => 0)
    ⟨2, 1, 0, 0, true⟩ 0 2 (by decide)

/-! ### C1: memoization — once per candidate signature, but the initial
evaluation is not memoized -/

theorem memoGet_append_of_some {S : Type} [DecidableEq S]
    (m l : List (S × Metrics)) (s : S) (h : (memoGet m s).isSome = true) :
    memoGet (m ++ l) s = memoGet m s := by
  induction m with
  | nil => cases h
  | cons p rest ih =>
    obtain ⟨s2, x⟩ := p
    by_cases hs : s2 = s
    · simp only [List.cons_append, memoGet, if_pos hs]
    · simp only [List.cons_append, memoGet, if_neg hs] at h ⊢
      exact ih h

theorem memoGet_append_fresh {S : Type} [DecidableEq S]
    (m : List (S × Metrics)) (s : S) (x : Metrics)
    (h : memoGet m s = none) : memoGet (m ++ [(s, x)]) s = some x := by
  induction m with
  | nil => simp [memoGet]
  | cons p rest ih =>
    obtain ⟨s2, y⟩ := p
    by_cases hs : s2 = s
    · simp only [memoGet, if_pos hs] at h
      cases h
    · simp only [List.cons_append, memoGet, if_neg hs] at h ⊢
      exact ih h

/-- Invariant tying the instrumented evaluator-call log to the memo: the
log is the initial graph followed by calls with pairwise-distinct
signatures, each of which has been written to the memo. -/
def ElogInv {G S : Type} [DecidableEq S] (sigfn : G → S) (initial : G)
    (elog : List G) (memo : List (S × Metrics)) : Prop :=
  ∃ tail, elog = initial :: tail ∧ (tail.map sigfn).Nodup ∧
    ∀ g ∈ tail, (memoGet memo (sigfn g)).isSome = true

theorem expandOne_elog_inv {G S : Type} [DecidableEq S]
    (evaluate : G → Metrics) (sigfn : G → S) (scorer : Metrics → Rat)
    (cfg : SearchConfig) (rand : Nat → Rat) (seen : List S) (initial : G)
    (acc : ExpandAcc G S) (rr : RuleResult G)
    (h : ElogInv sigfn initial acc.elog acc.memo) :
    ElogInv sigfn initial
      (expandOne evaluate sigfn scorer cfg rand seen acc rr).elog
      (expandOne evaluate sigfn scorer cfg rand seen acc rr).memo := by
  unfold expandOne
  cases hm : memoGet acc.memo (sigfn rr.new_graph) with
  | some m =>
    simp only [hm]
    exact h
  | none =>
    simp only [hm]
    obtain ⟨tail, he, hnd, hmem⟩ := h
    refine ⟨tail ++ [rr.new_graph], ?_, ?_, ?_⟩
    · simp only [he, List.cons_append]
    · rw [List.map_append]
      refine List.Nodup.append hnd (by simp) ?_
      intro x hx hx2
      simp only [List.map_cons, List.map_nil, List.mem_singleton] at hx2
      rcases List.mem_map.mp hx with ⟨g, hg, hgs⟩
      have := hmem g hg
      rw [hgs, hx2, hm] at this
      cases this
    · intro g hg
      rcases List.mem_append.mp hg with hg | hg
      · rw [memoGet_append_of_some acc.memo _ _ (hmem g hg)]
        exact hmem g hg
      · simp only [List.mem_singleton] at hg
        rw [hg, memoGet_append_fresh acc.memo _ _ hm]
        rfl

theorem foldl_expandOne_elog_inv {G S : Type} [DecidableEq S]
    (evaluate : G → Metrics) (sigfn : G → S) (scorer : Metrics → Rat)
    (cfg : SearchConfig) (rand : Nat → Rat) (seen : List S) (initial : G)
    (results : List (RuleResult G)) :
    ∀ acc : ExpandAcc G S, ElogInv sigfn initial acc.elog acc.memo →
      ElogInv sigfn initial
        (results.foldl (expandOne evaluate sigfn scorer cfg rand seen)
          acc).elog
        (results.foldl (expandOne evaluate sigfn scorer cfg rand seen)
          acc).memo := by
  induction results with
  | nil => intro acc h; exact h
  | cons rr rest ih =>
    intro acc h
    simp only [List.foldl_cons]
    exact ih _ (expandOne_elog_inv evaluate sigfn scorer cfg rand seen
      initial acc rr h)

theorem searchFinish_elog_inv {G S : Type} [DecidableEq S]
    (sigfn : G → S) (initial : G) (stop_pred : Metrics → Bool)
    (s : SState G S) (acc : ExpandAcc G S) (seen2 : List S)
    (bl : List (Cand G S)) (h : ElogInv sigfn initial acc.elog acc.memo) :
    ElogInv sigfn initial (searchFinish stop_pred s acc seen2 bl).elog
      (searchFinish stop_pred s acc seen2 bl).memo := by
  cases bl with
  | nil => exact h
  | cons b0 rest => exact h

theorem searchStep_elog_inv {G S : Type} [DecidableEq S]
    (rules : List (G → List (RuleResult G))) (evaluate : G → Metrics)
    (sigfn : G → S) (scorer : Metrics → Rat) (stop_pred : Metrics → Bool)
    (rand : Nat → Rat) (cfg : SearchConfig) (initial : G) (s : SState G S)
    (h : ElogInv sigfn initial s.elog s.memo) :
    ElogInv sigfn initial
      (searchStep rules evaluate sigfn scorer stop_pred rand cfg s).elog
      (searchStep rules evaluate sigfn scorer stop_pred rand cfg s).memo := by
  unfold searchStep
  split
  · exact h
  · unfold searchBody
    have hacc := foldl_expandOne_elog_inv evaluate sigfn scorer cfg rand
      s.seen initial
      ((s.beam.map (fun c => c.g)).flatMap (fun g => rules.flatMap
        (fun r => r g))) ⟨s.memo, s.elog, [], s.rix⟩ h
    split
    · exact hacc
    · exact searchFinish_elog_inv sigfn initial stop_pred s _ _ _ hacc

theorem searchState_elog_inv {G S : Type} [DecidableEq S] (initial : G)
    (rules : List (G → List (RuleResult G))) (evaluate : G → Metrics)
    (sigfn : G → S) (scorer : Metrics → Rat) (stop_pred : Metrics → Bool)
    (rand : Nat → Rat) (cfg : SearchConfig) (k : Nat) :
    ElogInv sigfn initial
      (searchState initial rules evaluate sigfn scorer stop_pred rand cfg
        k).elog
      (searchState initial rules evaluate sigfn scorer stop_pred rand cfg
        k).memo := by
  induction k with
  | zero => exact ⟨[], rfl, List.nodup_nil, fun g hg => absurd hg
      (List.not_mem_nil g)⟩
  | succ n ih =>
    rw [searchState_succ]
    exact searchStep_elog_inv rules evaluate sigfn scorer stop_pred rand cfg
      initial _ ih

/-- C1 (amended): within one search call, the Evaluator is invoked at most
once per distinct signature among the candidates produced in the loop —
the call log is the initial graph followed by calls with pairwise-distinct
signatures — but the initial graph's evaluation is NOT written to the
memo, so each signature is evaluated at most twice overall, and twice is
possible only for the initial graph's own signature. -/
theorem memoization_once_per_candidate_signature {G S : Type}
    [DecidableEq S] (initial : G)
    (rules : List (G → List (RuleResult G))) (evaluate : G → Metrics)
    (sigfn : G → S) (scorer : Metrics → Rat) (stop_pred : Metrics → Bool)
    (rand : Nat → Rat) (cfg : SearchConfig) (k : Nat) :
    ∃ tail,
      (searchState initial rules evaluate sigfn scorer stop_pred rand cfg
        k).elog = initial :: tail ∧
      (tail.map sigfn).Nodup ∧
      ∀ s : S,
        ((searchState initial rules evaluate sigfn scorer stop_pred rand
            cfg k).elog.map sigfn).count s ≤
          if s = sigfn initial then 2 else 1 := by
  obtain ⟨tail, he, hnd, _⟩ := searchState_elog_inv initial rules evaluate
    sigfn scorer stop_pred rand cfg k
  refine ⟨tail, he, hnd, ?_⟩
  intro s
  rw [he]
  simp only [List.map_cons, List.count_cons]
  have htail : (tail.map sigfn).count s ≤ 1 :=
    (List.nodup_iff_count_le_one.mp hnd) s
  by_cases hs : s = sigfn initial
  · rw [if_pos hs]
    have : (if sigfn initial == s then 1 else 0) ≤ 1 := by
      split <;> omega
    omega
  · rw [if_neg hs]
    have : (sigfn initial == s) = false := by
      simp only [beq_eq_false_iff_ne, ne_eq]
      exact fun hc => hs hc.symm
    rw [this]
    simp only [Bool.false_eq_true, if_false]
    omega

/-- Counterexample to C1 as stated: a rule that returns a clone of its
input reproduces the initial graph's canonical signature, and since the
seed evaluation is never written to the memo, the Evaluator runs a SECOND
time on that same signature — refuting "at most once per distinct
canonical signature ... including the signature of the initial graph". -/
theorem memoization_initial_counterexample :
    (((searchState (⟨[("a", ⟨"T", []⟩)], []⟩ : Graph)
        [fun g => [⟨g.clone, "noop"⟩]] (fun _ => ⟨1, false, []⟩)
        (Graph.signature id) (fun m => m.cost) (fun m => m.feasible)
        (fun _ => 0) ⟨1, 1, 0, 0, true⟩ 1).elog.map
      (Graph.signature id)).count
      (Graph.signature id (⟨[("a", ⟨"T", []⟩)], []⟩ : Graph))) = 2 := by
  with_unfolding_all rfl

/-! ### C8: the guard upsert precedes the accept/reject decision -/

theorem findGuardTarget_found (rg : Graph) (rid v k o : String) :
    ∀ (es : List (String × String × String)) (dst : String),
      findGuardTarget rg rid v k o es = .ok (some dst) →
      ∃ e ∈ es, e.1 = rid ∧ e.2.1 = "has_guard" ∧ e.2.2 = dst ∧
        ∃ n, dictGet rg.nodes dst = some n ∧
          (pyEq ((dictGet n.props "var").getD .pnone) (.pstr v) &&
            pyEq ((dictGet n.props "key").getD .pnone) (.pstr k) &&
            pyEq ((dictGet n.props "op").getD .pnone) (.pstr o)) = true := by
  intro es
  induction es with
  | nil =>
    intro dst h
    simp [findGuardTarget] at h
  | cons e rest ih =>
    intro dst h
    obtain ⟨src, et, d2⟩ := e
    simp only [findGuardTarget] at h
    by_cases hc : src = rid ∧ et = "has_guard"
    · rw [if_pos hc] at h
      cases hn : dictGet rg.nodes d2 with
      | none =>
        simp only [hn] at h
        cases h
      | some n =>
        simp only [hn] at h
        by_cases hm : (pyEq ((dictGet n.props "var").getD .pnone)
            (.pstr v) &&
            pyEq ((dictGet n.props "key").getD .pnone) (.pstr k) &&
            pyEq ((dictGet n.props "op").getD .pnone) (.pstr o)) = true
        · rw [if_pos hm] at h
          have hd : d2 = dst := by
            injection h with h2
            injection h2
          subst hd
          exact ⟨(src, et, d2), List.mem_cons_self _ _, hc.1, hc.2, rfl,
            n, hn, hm⟩
        · rw [if_neg hm] at h
          obtain ⟨e2, he2, hrest⟩ := ih dst h
          exact ⟨e2, List.mem_cons_of_mem _ he2, hrest⟩
    · rw [if_neg hc] at h
      obtain ⟨e2, he2, hrest⟩ := ih dst h
      exact ⟨e2, List.mem_cons_of_mem _ he2, hrest⟩

theorem upsert_contains_value (rg : Graph) (name v k o : String)
    (val : PVal) (rid : String) (up : Bool × Graph)
    (hfind : find_rule_id_by_name rg name = some rid) (hrid : rid ≠ "")
    (hup : upsert_threshold_guard rg name v k o val = .ok up) :
    ∃ gid, (gid, val) ∈ matchingGuards up.2 rid v k o := by
  unfold upsert_threshold_guard at hup
  simp only [hfind] at hup
  rw [if_neg hrid] at hup
  cases hT : findGuardTarget rg rid v k o rg.edges with
  | error e => simp [hT] at hup
  | ok w =>
    cases w with
    | some dst =>
      simp only [hT] at hup
      have hupv : up = (true, setNodePropRaw rg dst "value" val) := by
        injection hup with h2
        exact h2.symm
      obtain ⟨e, he, h1, h2, h3, n, hn, hm⟩ :=
        findGuardTarget_found rg rid v k o rg.edges dst hT
      refine ⟨dst, ?_⟩
      rw [hupv]
      have hnodes : (setNodePropRaw rg dst "value" val).nodes =
          dictSet rg.nodes dst ⟨n.ntype, dictSet n.props "value" val⟩ := by
        unfold setNodePropRaw
        rw [hn]
      have hedges : (setNodePropRaw rg dst "value" val).edges = rg.edges := by
        unfold setNodePropRaw
        rw [hn]
      unfold matchingGuards
      apply List.mem_filterMap.mpr
      refine ⟨e, by rw [hedges]; exact he, ?_⟩
      unfold guardEdgeEntry
      rw [if_pos ⟨h1, h2⟩, h3, hnodes, dictGet_dictSet, if_pos rfl]
      have hvv : dictGet (dictSet n.props "value" val) "var" =
          dictGet n.props "var" := by
        rw [dictGet_dictSet, if_neg (by decide : ¬("value" : String) = "var")]
      have hvk : dictGet (dictSet n.props "value" val) "key" =
          dictGet n.props "key" := by
        rw [dictGet_dictSet, if_neg (by decide : ¬("value" : String) = "key")]
      have hvo : dictGet (dictSet n.props "value" val) "op" =
          dictGet n.props "op" := by
        rw [dictGet_dictSet, if_neg (by decide : ¬("value" : String) = "op")]
      have hvval : dictGet (dictSet n.props "value" val) "value" = some val := by
        rw [dictGet_dictSet, if_pos rfl]
      simp only [hvv, hvk, hvo, hvval, hm, if_true, Option.getD_some]
    | none =>
      simp only [hT] at hup
      have hupv : up = (true, add_guard rg rid v k o val) := by
        injection hup with h2
        exact h2.symm
      refine ⟨rid ++ ".guard." ++ v ++ "." ++ k ++ "." ++ o, ?_⟩
      rw [hupv]
      unfold matchingGuards
      apply List.mem_filterMap.mpr
      refine ⟨(rid, "has_guard", rid ++ ".guard." ++ v ++ "." ++ k ++ "." ++
        o), ?_, ?_⟩
      · show _ ∈ (add_guard rg rid v k o val).edges
        exact List.mem_append_right _ (List.mem_singleton.mpr rfl)
      · unfold guardEdgeEntry
        rw [if_pos ⟨rfl, rfl⟩]
        have hlook : dictGet (add_guard rg rid v k o val).nodes
            (rid ++ ".guard." ++ v ++ "." ++ k ++ "." ++ o) =
            some ⟨"Guard", [("var", .pstr v), ("key", .pstr k),
              ("op", .pstr o), ("value", val)]⟩ := by
          show dictGet (dictSet rg.nodes _ _) _ = _
          rw [dictGet_dictSet, if_pos rfl]
        simp only [hlook]
        simp [dictGet, pyEq_pstr_refl]

/-- C8: whenever `propose_and_eval_guard` derives a concrete threshold,
the guard upsert has been applied to the rule-graph — the final rule-graph
state IS the upsert's output, the accept/reject decision is computed only
afterwards from the before/after aggregates, swapping the acceptance
policy changes nothing about the resulting rule-graph (so rejection does
not restore it), and if the target rule exists (with a nonempty id) the
final rule-graph contains a matching guard holding the new threshold. -/
theorem guard_upsert_before_accept {H P S : Type} [DecidableEq S]
    (rg : Graph) (ctx : CompileContext H)
    (callHandler : H → Graph → String → List (PVal × PVal) →
      List (List (String × PVal)) → (Graph → Env → Bool) →
      (Graph → List (RuleResult Graph)))
    (evaluate : Graph → P → Metrics) (suite : List (Graph × P))
    (miner : List StepRec → List Rat) (guard_spec : GuardEditSpec)
    (cfg : SearchConfig) (sigfn : Graph → S) (scorer : Metrics → Rat)
    (stop_pred : Metrics → Bool) (rand : Nat → Rat) (reducer : String)
    (p1 : Agg → Agg → Bool) (r : ProposeResult) (t : Rat)
    (hok : propose_and_eval_guard rg ctx callHandler evaluate suite miner
      guard_spec cfg sigfn scorer stop_pred rand reducer p1 = .ok r)
    (ht : r.threshold = some t) :
    (∃ flag, upsert_threshold_guard rg guard_spec.rule_name guard_spec.var
      guard_spec.key guard_spec.op (.pnum t) = .ok (flag, r.rg)) ∧
    (∃ ab aa, r.agg_before = some ab ∧ r.agg_after = some aa ∧
      r.accepted = some (p1 ab aa)) ∧
    (∀ p2 : Agg → Agg → Bool, ∃ r2,
      propose_and_eval_guard rg ctx callHandler evaluate suite miner
        guard_spec cfg sigfn scorer stop_pred rand reducer p2 = .ok r2 ∧
      r2.rg = r.rg ∧ r2.threshold = some t) ∧
    (∀ rid, find_rule_id_by_name rg guard_spec.rule_name = some rid →
      rid ≠ "" →
      ∃ gid, (gid, PVal.pnum t) ∈ matchingGuards r.rg rid guard_spec.var
        guard_spec.key guard_spec.op) := by
  cases hc0 : compile_rules_from_pgr rg ctx callHandler with
  | error e => simp [propose_and_eval_guard, hc0] at hok
  | ok rules0 =>
    cases suite with
    | nil => simp [propose_and_eval_guard, hc0] at hok
    | cons task rest =>
      obtain ⟨g0, ep0⟩ := task
      cases hthr : reduce_threshold (miner (search g0 rules0
          (fun g => evaluate g ep0) sigfn scorer stop_pred rand cfg).2.2)
          guard_spec.epsilon reducer with
      | error e => simp [propose_and_eval_guard, hc0, hthr] at hok
      | ok w =>
        cases w with
        | none =>
          exfalso
          simp only [propose_and_eval_guard, hc0, hthr] at hok
          injection hok with hok
          rw [← hok] at ht
          cases ht
        | some t2 =>
          cases hup : upsert_threshold_guard rg guard_spec.rule_name
              guard_spec.var guard_spec.key guard_spec.op (.pnum t2) with
          | error e =>
            simp [propose_and_eval_guard, hc0, hthr, hup] at hok
          | ok up =>
            cases hc1 : compile_rules_from_pgr up.2 ctx callHandler with
            | error e =>
              simp [propose_and_eval_guard, hc0, hthr, hup, hc1] at hok
            | ok rules1 =>
              have hr : r = ⟨some t2,
                  some (p1
                    (aggregate_metrics (run_golden_suite rules0 evaluate
                      ((g0, ep0) :: rest) sigfn scorer stop_pred rand cfg))
                    (aggregate_metrics (run_golden_suite rules1 evaluate
                      ((g0, ep0) :: rest) sigfn scorer stop_pred rand cfg))),
                  (search g0 rules0 (fun g => evaluate g ep0) sigfn scorer
                    stop_pred rand cfg).2.2,
                  some (aggregate_metrics (run_golden_suite rules0 evaluate
                    ((g0, ep0) :: rest) sigfn scorer stop_pred rand cfg)),
                  some (aggregate_metrics (run_golden_suite rules1 evaluate
                    ((g0, ep0) :: rest) sigfn scorer stop_pred rand cfg)),
                  up.2⟩ := by
                simp only [propose_and_eval_guard, hc0, hthr, hup, hc1]
                  at hok
                injection hok with hok
                exact hok.symm
              have ht2 : t2 = t := by
                rw [hr] at ht
                injection ht
              subst ht2
              refine ⟨⟨up.1, by rw [hr, hup]⟩, ?_, ?_, ?_⟩
              · exact ⟨_, _, by rw [hr], by rw [hr], by rw [hr]⟩
              · intro p2
                refine ⟨⟨some t2,
                  some (p2
                    (aggregate_metrics (run_golden_suite rules0 evaluate
                      ((g0, ep0) :: rest) sigfn scorer stop_pred rand cfg))
                    (aggregate_metrics (run_golden_suite rules1 evaluate
                      ((g0, ep0) :: rest) sigfn scorer stop_pred rand cfg))),
                  (search g0 rules0 (fun g => evaluate g ep0) sigfn scorer
                    stop_pred rand cfg).2.2,
                  some (aggregate_metrics (run_golden_suite rules0 evaluate
                    ((g0, ep0) :: rest) sigfn scorer stop_pred rand cfg)),
                  some (aggregate_metrics (run_golden_suite rules1 evaluate
                    ((g0, ep0) :: rest) sigfn scorer stop_pred rand cfg)),
                  up.2⟩, ?_, by rw [hr], rfl⟩
                simp only [propose_and_eval_guard, hc0, hthr, hup, hc1]
              · intro rid hfind hrid
                have := upsert_contains_value rg guard_spec.rule_name
                  guard_spec.var guard_spec.key guard_spec.op (.pnum t2)
                  rid up hfind hrid hup
                rw [hr]
                exact this

/-- Concrete rule-graph for the guard-synthesis witness: a rule-set node
plus one rule named `"r"` of kind `"k"`. -/
def exRuleGraph : Graph :=
  add_rule (add_ruleset ⟨[], []⟩ "ruleset" []) "r1" "r" "k" []

/-- Hand-computed result of the witness run of `propose_and_eval_guard`
on `exRuleGraph` (iteration budget 0, constant miner `[1]`, median
reducer, default acceptance policy — which rejects, yet the rule-graph
keeps the upserted guard). -/
def exProposeResult : ProposeResult :=
  ⟨some 1, some false, [⟨"init", ⟨0, true, []⟩, none⟩],
    some ⟨1, 0, 1⟩, some ⟨1, 0, 1⟩,
    add_guard exRuleGraph "r1" "x" "len" "<" (.pnum 1)⟩

/-- Witness for C8 at a concrete input: the run rejects the edit
(`accepted = some false`) and the final rule-graph is still exactly the
upsert's output. -/
theorem guard_upsert_before_accept_witness :
    (∃ flag, upsert_threshold_guard exRuleGraph "r" "x" "len" "<"
      (.pnum 1) = .ok (flag, exProposeResult.rg)) ∧
    exProposeResult.accepted = some false :=
  ⟨(guard_upsert_before_accept exRuleGraph ⟨[("k", ())]⟩
      (fun _ _ _ _ _ _ => fun _ => []) (fun _ _ => ⟨0, true, []⟩)
      [(⟨[], []⟩, ())] (fun _ => [1]) ⟨"r", "x", "len", "<", 0⟩
      ⟨0, 1, 0, 0, true⟩ (fun _ => (0 : Nat)) (fun m => m.cost)
      (fun m => m.feasible) (fun _ => 0) "median" default_accept_policy
      exProposeResult 1 (by with_unfolding_all rfl) rfl).1, rfl⟩

/-! ### C2: clone isolation at the reference level -/

namespace Mem

theorem hfind_hsetList_ne (objs : List (Nat × HObj)) (a : Nat) (o : HObj)
    (b : Nat) (hne : b ≠ a) : hfind (hsetList objs a o) b = hfind objs b := by
  induction objs with
  | nil => rfl
  | cons p rest ih =>
    obtain ⟨c, o2⟩ := p
    simp only [hsetList]
    by_cases hc : c = a
    · rw [if_pos hc]
      simp only [hfind]
      have hcb : ¬ c = b := fun h => hne (h.symm.trans hc)
      rw [if_neg hcb, if_neg hcb]
    · rw [if_neg hc]
      simp only [hfind]
      by_cases hb : c = b
      · rw [if_pos hb, if_pos hb]
      · rw [if_neg hb, if_neg hb]
        exact ih

theorem hget_hset_ne (h : Heap) (a : Nat) (o : HObj) (b : Nat)
    (hne : b ≠ a) : hget (hset h a o) b = hget h b :=
  hfind_hsetList_ne h.objs a o b hne

theorem hfind_append_none (l1 l2 : List (Nat × HObj)) (a : Nat)
    (h : hfind l1 a = none) : hfind (l1 ++ l2) a = hfind l2 a := by
  induction l1 with
  | nil => rfl
  | cons p rest ih =>
    obtain ⟨c, o⟩ := p
    simp only [hfind] at h
    simp only [List.cons_append, hfind]
    by_cases hc : c = a
    · rw [if_pos hc] at h
      cases h
    · rw [if_neg hc] at h ⊢
      exact ih h

theorem hfind_append_some (l1 l2 : List (Nat × HObj)) (a : Nat) (o : HObj)
    (h : hfind l1 a = some o) : hfind (l1 ++ l2) a = some o := by
  induction l1 with
  | nil => cases h
  | cons p rest ih =>
    obtain ⟨c, o2⟩ := p
    simp only [hfind] at h
    simp only [List.cons_append, hfind]
    by_cases hc : c = a
    · rw [if_pos hc] at h ⊢
      exact h
    · rw [if_neg hc] at h ⊢
      exact ih h

theorem hfind_none_of_bound (l : List (Nat × HObj)) (a : Nat)
    (hb : ∀ p ∈ l, p.1 < a) : hfind l a = none := by
  induction l with
  | nil => rfl
  | cons p rest ih =>
    obtain ⟨c, o⟩ := p
    simp only [hfind]
    have hlt : c < a := hb (c, o) (List.mem_cons_self _ _)
    rw [if_neg (fun h => absurd (h ▸ hlt) (Nat.lt_irrefl _))]
    exact ih (fun q hq => hb q (List.mem_cons_of_mem _ hq))

theorem hget_halloc_old (h : Heap) (o : HObj) (a : Nat) (hne : a ≠ h.next) :
    hget (halloc h o).1 a = hget h a := by
  show hfind (h.objs ++ [(h.next, o)]) a = hfind h.objs a
  cases hf : hfind h.objs a with
  | none =>
    rw [hfind_append_none h.objs _ a hf]
    simp only [hfind]
    rw [if_neg (fun hc => hne hc.symm)]
  | some o2 => exact hfind_append_some h.objs _ a o2 hf

theorem hget_halloc_fresh (h : Heap) (o : HObj)
    (hb : ∀ p ∈ h.objs, p.1 < h.next) : hget (halloc h o).1 h.next = some o := by
  show hfind (h.objs ++ [(h.next, o)]) h.next = some o
  rw [hfind_append_none h.objs _ h.next (hfind_none_of_bound h.objs h.next hb)]
  simp [hfind]

theorem hfind_lt_of_bound (l : List (Nat × HObj)) (a : Nat) (o : HObj)
    (n : Nat) (hb : ∀ p ∈ l, p.1 < n) (hf : hfind l a = some o) : a < n := by
  induction l with
  | nil => cases hf
  | cons p rest ih =>
    obtain ⟨c, o2⟩ := p
    simp only [hfind] at hf
    by_cases hc : c = a
    · exact hc ▸ hb (c, o2) (List.mem_cons_self _ _)
    · rw [if_neg hc] at hf
      exact ih (fun q hq => hb q (List.mem_cons_of_mem _ hq)) hf

theorem hget_lt_next (h : Heap) (a : Nat) (o : HObj)
    (hb : ∀ p ∈ h.objs, p.1 < h.next) (hf : hget h a = some o) :
    a < h.next :=
  hfind_lt_of_bound h.objs a o h.next hb hf

/-- Specification of the node-table walk of `clone`: the bump pointer
advances by one per node, old addresses read unchanged, the fresh property
dicts sit in `[h.next, next')` and hold exactly the original entries. -/
theorem cloneNodes_spec (ns : List (String × HNode)) : ∀ h : Heap,
    (∀ p ∈ h.objs, p.1 < h.next) →
    (cloneNodes h ns).1.next = h.next + ns.length ∧
    (∀ p ∈ (cloneNodes h ns).1.objs, p.1 < (cloneNodes h ns).1.next) ∧
    (∀ a, a < h.next → hget (cloneNodes h ns).1 a = hget h a) ∧
    (∀ q ∈ (cloneNodes h ns).2, h.next ≤ q.2.propsAddr ∧
      q.2.propsAddr < (cloneNodes h ns).1.next) ∧
    List.Forall₂ (fun p q => p.1 = q.1 ∧ p.2.ntype = q.2.ntype ∧
      ∀ es, hget h p.2.propsAddr = some (.hdict es) →
        hget (cloneNodes h ns).1 q.2.propsAddr = some (.hdict es)) ns
      (cloneNodes h ns).2 := by
  induction ns with
  | nil =>
    intro h hb
    refine ⟨by simp [cloneNodes], hb, fun a _ => rfl, ?_, List.Forall₂.nil⟩
    intro q hq
    cases hq
  | cons p rest ih =>
    intro h hb
    obtain ⟨nid, n⟩ := p
    simp only [cloneNodes]
    have hh1next : (halloc h (.hdict (entriesOf (hget h n.propsAddr)))).1.next
        = h.next + 1 := rfl
    have hal2 : (halloc h (.hdict (entriesOf (hget h n.propsAddr)))).2 =
        h.next := rfl
    have hbal : ∀ q ∈ (halloc h
          (.hdict (entriesOf (hget h n.propsAddr)))).1.objs,
        q.1 < (halloc h (.hdict (entriesOf (hget h n.propsAddr)))).1.next := by
      intro q hq
      rcases List.mem_append.mp hq with hq | hq
      · exact Nat.lt_succ_of_lt (hb q hq)
      · simp only [List.mem_singleton] at hq
        rw [hq]
        exact Nat.lt_succ_self _
    obtain ⟨ihnext, ihb, ihpres, ihrange, ihf2⟩ :=
      ih (halloc h (.hdict (entriesOf (hget h n.propsAddr)))).1 hbal
    refine ⟨?_, ihb, ?_, ?_, ?_⟩
    · rw [ihnext, hh1next]
      simp only [List.length_cons]
      omega
    · intro a ha
      rw [ihpres a (by omega)]
      exact hget_halloc_old h _ a (by omega)
    · intro q hq
      rcases List.mem_cons.mp hq with hq | hq
      · rw [hq]
        simp only [hal2]
        refine ⟨le_rfl, ?_⟩
        rw [ihnext, hh1next]
        omega
      · obtain ⟨hq1, hq2⟩ := ihrange q hq
        rw [hh1next] at hq1
        exact ⟨by omega, hq2⟩
    · refine List.Forall₂.cons ⟨rfl, rfl, ?_⟩ ?_
      · intro es hes
        simp only [hal2]
        rw [ihpres h.next (by omega)]
        have := hget_halloc_fresh h (.hdict (entriesOf (hget h n.propsAddr)))
          hb
        rw [hes] at this ⊢
        exact this
      · refine List.Forall₂.imp ?_ ihf2
        intro p q hpq
        refine ⟨hpq.1, hpq.2.1, ?_⟩
        intro es hes
        have hlt : p.2.propsAddr < h.next :=
          hget_lt_next h _ _ hb hes
        refine hpq.2.2 es ?_
        rw [hget_halloc_old h _ _ (by omega)]
        exact hes

theorem dictGet_mem {α : Type} (d : List (String × α)) (k : String) (v : α)
    (h : dictGet d k = some v) : (k, v) ∈ d := by
  induction d with
  | nil => cases h
  | cons p rest ih =>
    obtain ⟨k2, v2⟩ := p
    simp only [dictGet] at h
    by_cases hk : k2 = k
    · rw [if_pos hk] at h
      injection h with h
      rw [← hk, ← h]
      exact List.mem_cons_self _ _
    · rw [if_neg hk] at h
      exact List.mem_cons_of_mem _ (ih h)

theorem forall2_dictGet (ns cs : List (String × HNode))
    (R : (String × HNode) → (String × HNode) → Prop)
    (hf : List.Forall₂ R ns cs) (hkey : ∀ p q, R p q → p.1 = q.1)
    (nid : String) :
    (dictGet ns nid = none ∧ dictGet cs nid = none) ∨
      ∃ n q, dictGet ns nid = some n ∧ dictGet cs nid = some q ∧
        R (nid, n) (nid, q) := by
  induction hf with
  | nil => exact Or.inl ⟨rfl, rfl⟩
  | cons hR hrest ih =>
    rename_i p q ns2 cs2
    obtain ⟨k1, n1⟩ := p
    obtain ⟨k2, q1⟩ := q
    have hk12 : k1 = k2 := hkey _ _ hR
    subst hk12
    simp only [dictGet]
    by_cases hk : k1 = nid
    · subst hk
      rw [if_pos rfl, if_pos rfl]
      exact Or.inr ⟨n1, q1, rfl, rfl, hR⟩
    · rw [if_neg hk, if_neg hk]
      exact ih

theorem readProp_hset_ne (h : Heap) (g : HGraph) (nid key : String)
    (a : Nat) (o : HObj)
    (hne : ∀ n, dictGet g.nodes nid = some n → n.propsAddr ≠ a) :
    readProp (hset h a o) g nid key = readProp h g nid key := by
  unfold readProp
  cases hd : dictGet g.nodes nid with
  | none => rfl
  | some n =>
    dsimp only
    rw [hget_hset_ne h a o n.propsAddr (hne n hd)]

theorem readEdges_hset_ne (h : Heap) (g : HGraph) (a : Nat) (o : HObj)
    (hne : g.edgesAddr ≠ a) :
    readEdges (hset h a o) g = readEdges h g := by
  unfold readEdges
  rw [hget_hset_ne h a o g.edgesAddr hne]

theorem setPropTop_heap_cases (h : Heap) (g : HGraph) (nid key : String)
    (v : HVal) :
    setPropTop h g nid key v = h ∨
      ∃ n o, dictGet g.nodes nid = some n ∧
        setPropTop h g nid key v = hset h n.propsAddr o := by
  unfold setPropTop
  cases hd : dictGet g.nodes nid with
  | none => exact Or.inl rfl
  | some n =>
    dsimp only
    cases hh : hget h n.propsAddr with
    | none => exact Or.inl rfl
    | some o =>
      cases o with
      | hdict es => exact Or.inr ⟨n, _, rfl, rfl⟩
      | hlist xs => exact Or.inl rfl

theorem addEdgeM_heap_cases (h : Heap) (g : HGraph) (src etype dst : String) :
    addEdgeM h g src etype dst = h ∨
      ∃ o, addEdgeM h g src etype dst = hset h g.edgesAddr o := by
  unfold addEdgeM
  cases hh : hget h g.edgesAddr with
  | none => exact Or.inl rfl
  | some o =>
    cases o with
    | hdict es => exact Or.inl rfl
    | hlist xs => exact Or.inr ⟨_, rfl⟩

theorem readProp_agree (h h2 : Heap) (g : HGraph) (nid key : String)
    (ha : ∀ n, dictGet g.nodes nid = some n →
      hget h2 n.propsAddr = hget h n.propsAddr) :
    readProp h2 g nid key = readProp h g nid key := by
  unfold readProp
  cases hd : dictGet g.nodes nid with
  | none => rfl
  | some n =>
    dsimp only
    rw [ha n hd]

theorem readEdges_agree (h h2 : Heap) (g : HGraph)
    (ha : hget h2 g.edgesAddr = hget h g.edgesAddr) :
    readEdges h2 g = readEdges h g := by
  unfold readEdges
  rw [ha]

/-- C2 (amended): `clone` copies every node's TOP-LEVEL property dict and
the edge list into fresh heap objects, so (on a well-formed graph) the
clone reads the same property values and edges as the original, and every
top-level property write (`ng.nodes[x]["props"][k] = v`, `set_props`) or
edge append (`add_edge`) performed through the clone leaves all of the
original's readable property values and edges unchanged, and vice versa.
The copy is NOT deep: `dict(v["props"])` copies one level only, so a
nested mutable container stored as a property value is shared by
reference, and mutating it through the clone changes the original's
nested value (see the counterexample). -/
theorem clone_isolation_top_level (h : Heap) (g : HGraph) (h2 : Heap)
    (c : HGraph) (hwf : WF h g) (hh2 : h2 = (clone h g).1)
    (hc : c = (clone h g).2) :
    (∀ nid key, readProp h2 c nid key = readProp h g nid key) ∧
    readEdges h2 c = readEdges h g ∧
    (∀ nid key v nid2 key2,
      readProp (setPropTop h2 c nid key v) g nid2 key2 =
        readProp h g nid2 key2) ∧
    (∀ nid key v,
      readEdges (setPropTop h2 c nid key v) g = readEdges h g) ∧
    (∀ s e d nid key,
      readProp (addEdgeM h2 c s e d) g nid key = readProp h g nid key) ∧
    (∀ s e d, readEdges (addEdgeM h2 c s e d) g = readEdges h g) ∧
    (∀ nid key v nid2 key2,
      readProp (setPropTop h2 g nid key v) c nid2 key2 =
        readProp h2 c nid2 key2) ∧
    (∀ nid key v,
      readEdges (setPropTop h2 g nid key v) c = readEdges h2 c) ∧
    (∀ s e d nid key,
      readProp (addEdgeM h2 g s e d) c nid key = readProp h2 c nid key) ∧
    (∀ s e d, readEdges (addEdgeM h2 g s e d) c = readEdges h2 c) := by
  obtain ⟨hnext, hb2, hpres, hrange, hf2⟩ :=
    cloneNodes_spec g.nodes h hwf.heapBound
  have hh2' : h2 = (halloc (cloneNodes h g.nodes).1
      (.hlist (itemsOf (hget (cloneNodes h g.nodes).1 g.edgesAddr)))).1 := hh2
  have hc1 : c.nodes = (cloneNodes h g.nodes).2 := by
    rw [hc]
    rfl
  have hc2 : c.edgesAddr = (cloneNodes h g.nodes).1.next := by
    rw [hc]
    rfl
  have hg2 : ∀ a, a < h.next → hget h2 a = hget h a := by
    intro a ha
    rw [hh2', hget_halloc_old _ _ a (by omega)]
    exact hpres a ha
  have origAddrLt : ∀ nid n, dictGet g.nodes nid = some n →
      n.propsAddr < h.next := by
    intro nid n hdn
    obtain ⟨es, hes⟩ := hwf.propsOk (nid, n) (dictGet_mem _ _ _ hdn)
    exact hget_lt_next h _ _ hwf.heapBound hes
  obtain ⟨xs, hxs⟩ := hwf.edgesOk
  have hedgeLt : g.edgesAddr < h.next :=
    hget_lt_next h _ _ hwf.heapBound hxs
  have cloneAddrGe : ∀ nid q, dictGet c.nodes nid = some q →
      h.next ≤ q.propsAddr ∧
        q.propsAddr < (cloneNodes h g.nodes).1.next := by
    intro nid q hdq
    have hmem := dictGet_mem _ _ _ hdq
    rw [hc1] at hmem
    exact hrange (nid, q) hmem
  have hce : h.next ≤ c.edgesAddr := by
    rw [hc2]
    omega
  have hfresh := hget_halloc_fresh (cloneNodes h g.nodes).1
    (.hlist (itemsOf (hget (cloneNodes h g.nodes).1 g.edgesAddr))) hb2
  have hedges2 : hget h2 c.edgesAddr = some (.hlist xs) := by
    rw [hh2', hc2, hfresh, hpres g.edgesAddr hedgeLt, hxs]
    rfl
  have propAgree : ∀ nid key,
      readProp h2 c nid key = readProp h g nid key := by
    intro nid key
    rcases forall2_dictGet g.nodes (cloneNodes h g.nodes).2 _ hf2
        (fun p q hpq => hpq.1) nid with ⟨hn1, hn2⟩ | ⟨n, q, hn1, hn2, hR⟩
    · simp only [readProp, hc1, hn1, hn2]
    · obtain ⟨es, hes⟩ := hwf.propsOk (nid, n) (dictGet_mem _ _ _ hn1)
      have hcn : hget (cloneNodes h g.nodes).1 q.propsAddr =
          some (.hdict es) := hR.2.2 es hes
      have hqlt : q.propsAddr < (cloneNodes h g.nodes).1.next :=
        hget_lt_next _ _ _ hb2 hcn
      have hq2 : hget h2 q.propsAddr = some (.hdict es) := by
        rw [hh2', hget_halloc_old _ _ _ (by omega)]
        exact hcn
      simp only [readProp, hc1, hn1, hn2, hq2, hes]
  have edgeAgree : readEdges h2 c = readEdges h g := by
    simp only [readEdges, hedges2, hxs]
  have propAgreeOrig : ∀ nid key,
      readProp h2 g nid key = readProp h g nid key := by
    intro nid key
    refine readProp_agree h h2 g nid key ?_
    intro n hdn
    exact hg2 n.propsAddr (origAddrLt nid n hdn)
  have edgeAgreeOrig : readEdges h2 g = readEdges h g :=
    readEdges_agree h h2 g (hg2 g.edgesAddr hedgeLt)
  refine ⟨propAgree, edgeAgree, ?_, ?_, ?_, ?_, ?_, ?_, ?_, ?_⟩
  · intro nid key v nid2 key2
    rcases setPropTop_heap_cases h2 c nid key v with heq | ⟨q, o, hdq, heq⟩
    · rw [heq]
      exact propAgreeOrig nid2 key2
    · rw [heq, readProp_hset_ne h2 g nid2 key2 q.propsAddr o
        (by
          intro n hdn
          have h1 := origAddrLt nid2 n hdn
          have h2g := (cloneAddrGe nid q hdq).1
          omega)]
      exact propAgreeOrig nid2 key2
  · intro nid key v
    rcases setPropTop_heap_cases h2 c nid key v with heq | ⟨q, o, hdq, heq⟩
    · rw [heq]
      exact edgeAgreeOrig
    · rw [heq, readEdges_hset_ne h2 g q.propsAddr o
        (by
          have := (cloneAddrGe nid q hdq).1
          omega)]
      exact edgeAgreeOrig
  · intro s e d nid key
    rcases addEdgeM_heap_cases h2 c s e d with heq | ⟨o, heq⟩
    · rw [heq]
      exact propAgreeOrig nid key
    · rw [heq, readProp_hset_ne h2 g nid key c.edgesAddr o
        (by
          intro n hdn
          have := origAddrLt nid n hdn
          omega)]
      exact propAgreeOrig nid key
  · intro s e d
    rcases addEdgeM_heap_cases h2 c s e d with heq | ⟨o, heq⟩
    · rw [heq]
      exact edgeAgreeOrig
    · rw [heq, readEdges_hset_ne h2 g c.edgesAddr o (by omega)]
      exact edgeAgreeOrig
  · intro nid key v nid2 key2
    rcases setPropTop_heap_cases h2 g nid key v with heq | ⟨n, o, hdn, heq⟩
    · rw [heq]
    · rw [heq]
      exact readProp_hset_ne h2 c nid2 key2 n.propsAddr o
        (by
          intro q hdq
          have := (cloneAddrGe nid2 q hdq).1
          have := origAddrLt nid n hdn
          omega)
  · intro nid key v
    rcases setPropTop_heap_cases h2 g nid key v with heq | ⟨n, o, hdn, heq⟩
    · rw [heq]
    · rw [heq]
      exact readEdges_hset_ne h2 c n.propsAddr o
        (by
          have := origAddrLt nid n hdn
          omega)
  · intro s e d nid key
    rcases addEdgeM_heap_cases h2 g s e d with heq | ⟨o, heq⟩
    · rw [heq]
    · rw [heq]
      exact readProp_hset_ne h2 c nid key g.edgesAddr o
        (by
          intro q hdq
          have := (cloneAddrGe nid q hdq).1
          omega)
  · intro s e d
    rcases addEdgeM_heap_cases h2 g s e d with heq | ⟨o, heq⟩
    · rw [heq]
    · rw [heq]
      exact readEdges_hset_ne h2 c g.edgesAddr o (by omega)

/-- A heap with a nested mutable mapping: address 0 holds the nested dict
`{"k": "old"}`, address 1 holds node `a`'s property dict `{"m": ref 0}`,
address 2 holds the (empty) edge list. -/
def cexHeap : Heap :=
  ⟨[(0, .hdict [("k", .prim (.pstr "old"))]),
    (1, .hdict [("m", .ref 0)]),
    (2, .hlist [])], 3⟩

/-- A one-node graph over `cexHeap` whose node `a` has the nested mapping
as the value of its property `m`. -/
def cexGraph : HGraph := ⟨[("a", ⟨"T", 1⟩)], 2⟩

/-- C2 counterexample: `clone` is not a deep copy. The clone's node `a`
still holds a reference to the SAME nested mapping (address 0) as the
original; the nested in-place write `props["m"]["k"] = "new"` performed
through the clone's property value changes the value the ORIGINAL graph
reads through its own property `m`, from `"old"` to `"new"`. -/
theorem clone_nested_alias_counterexample :
    readProp (clone cexHeap cexGraph).1 (clone cexHeap cexGraph).2 "a" "m"
        = some (HVal.ref 0) ∧
    readProp cexHeap cexGraph "a" "m" = some (HVal.ref 0) ∧
    readNested cexHeap 0 "k" = some (HVal.prim (.pstr "old")) ∧
    readNested (setDictEntry (clone cexHeap cexGraph).1 0 "k"
        (HVal.prim (.pstr "new"))) 0 "k" =
      some (HVal.prim (.pstr "new")) := by
  refine ⟨rfl, rfl, rfl, rfl⟩

/-- Witness for C2: the concrete heap and graph are well-formed, and the
theorem's isolation conclusion evaluates as stated on them. -/
theorem clone_isolation_top_level_witness :
    WF cexHeap cexGraph ∧
    readProp (setPropTop (clone cexHeap cexGraph).1
        (clone cexHeap cexGraph).2 "a" "m" (HVal.prim (.pstr "z")))
      cexGraph "a" "m" = readProp cexHeap cexGraph "a" "m" := by
  have hwf : WF cexHeap cexGraph := by
    refine ⟨by decide, ?_, ⟨[], rfl⟩⟩
    intro p hp
    simp only [cexGraph, List.mem_singleton] at hp
    subst hp
    exact ⟨[("m", HVal.ref 0)], rfl⟩
  exact ⟨hwf, (clone_isolation_top_level cexHeap cexGraph
    (clone cexHeap cexGraph).1 (clone cexHeap cexGraph).2 hwf rfl
    rfl).2.2.1 "a" "m" (HVal.prim (.pstr "z")) "a" "m"⟩

end Mem

/-! ### C6: signature determinism and invariance -/

theorem strLt_irrefl (a : String) : strLt a a = false := by
  cases hb : strLt a a with
  | false => rfl
  | true => exact absurd rfl ((strLt_iff a a).mp hb).2

theorem strLt_asymm (a b : String) (h1 : strLt a b = true)
    (h2 : strLt b a = true) : False :=
  ((strLt_iff a b).mp h1).2
    (strLe_antisymm a b ((strLt_iff a b).mp h1).1 ((strLt_iff b a).mp h2).1)

theorem strLt_trans (a b c : String) (h1 : strLt a b = true)
    (h2 : strLt b c = true) : strLt a c = true := by
  refine (strLt_iff a c).mpr ⟨strLe_trans a b c ((strLt_iff a b).mp h1).1
    ((strLt_iff b c).mp h2).1, ?_⟩
  intro he
  subst he
  exact strLt_asymm a b h1 h2

theorem strLt_trichotomy (a b : String) :
    strLt a b = true ∨ a = b ∨ strLt b a = true := by
  by_cases he : a = b
  · exact Or.inr (Or.inl he)
  · rcases strLe_total a b with h | h
    · exact Or.inl ((strLt_iff a b).mpr ⟨h, he⟩)
    · exact Or.inr (Or.inr ((strLt_iff b a).mpr ⟨h, fun hc => he hc.symm⟩))

theorem tripleLe_iff (a b : String × String × String) :
    tripleLe a b = true ↔
      strLt a.1 b.1 = true ∨
        (a.1 = b.1 ∧ (strLt a.2.1 b.2.1 = true ∨
          (a.2.1 = b.2.1 ∧ strLe a.2.2 b.2.2 = true))) := by
  unfold tripleLe
  simp [Bool.or_eq_true, Bool.and_eq_true, beq_iff_eq]

theorem tripleLe_total (a b : String × String × String) :
    tripleLe a b = true ∨ tripleLe b a = true := by
  rcases strLt_trichotomy a.1 b.1 with h | h | h
  · exact Or.inl ((tripleLe_iff a b).mpr (Or.inl h))
  · rcases strLt_trichotomy a.2.1 b.2.1 with h2 | h2 | h2
    · exact Or.inl ((tripleLe_iff a b).mpr (Or.inr ⟨h, Or.inl h2⟩))
    · rcases strLe_total a.2.2 b.2.2 with h3 | h3
      · exact Or.inl ((tripleLe_iff a b).mpr (Or.inr ⟨h, Or.inr ⟨h2, h3⟩⟩))
      · exact Or.inr ((tripleLe_iff b a).mpr
          (Or.inr ⟨h.symm, Or.inr ⟨h2.symm, h3⟩⟩))
    · exact Or.inr ((tripleLe_iff b a).mpr (Or.inr ⟨h.symm, Or.inl h2⟩))
  · exact Or.inr ((tripleLe_iff b a).mpr (Or.inl h))

theorem tripleLe_trans (a b c : String × String × String)
    (h1 : tripleLe a b = true) (h2 : tripleLe b c = true) :
    tripleLe a c = true := by
  rw [tripleLe_iff] at h1 h2 ⊢
  rcases h1 with h1 | ⟨he1, hr1⟩
  · rcases h2 with h2 | ⟨he2, hr2⟩
    · exact Or.inl (strLt_trans _ _ _ h1 h2)
    · rw [← he2]
      exact Or.inl h1
  · rcases h2 with h2 | ⟨he2, hr2⟩
    · rw [he1]
      exact Or.inl h2
    · refine Or.inr ⟨he1.trans he2, ?_⟩
      rcases hr1 with h1 | ⟨hf1, h1⟩
      · rcases hr2 with h2 | ⟨hf2, h2⟩
        · exact Or.inl (strLt_trans _ _ _ h1 h2)
        · rw [← hf2]
          exact Or.inl h1
      · rcases hr2 with h2 | ⟨hf2, h2⟩
        · rw [hf1]
          exact Or.inl h2
        · exact Or.inr ⟨hf1.trans hf2, strLe_trans _ _ _ h1 h2⟩

theorem tripleLe_antisymm (a b : String × String × String)
    (h1 : tripleLe a b = true) (h2 : tripleLe b a = true) : a = b := by
  rw [tripleLe_iff] at h1 h2
  rcases h1 with h1 | ⟨he1, hr1⟩
  · rcases h2 with h2 | ⟨he2, hr2⟩
    · exact (strLt_asymm _ _ h1 h2).elim
    · rw [he2] at h1
      rw [strLt_irrefl] at h1
      exact Bool.noConfusion h1
  · rcases h2 with h2 | ⟨he2, hr2⟩
    · rw [he1] at h2
      rw [strLt_irrefl] at h2
      exact Bool.noConfusion h2
    · rcases hr1 with h1 | ⟨hf1, h1⟩
      · rcases hr2 with h2 | ⟨hf2, h2⟩
        · exact (strLt_asymm _ _ h1 h2).elim
        · rw [hf2] at h1
          rw [strLt_irrefl] at h1
          exact Bool.noConfusion h1
      · rcases hr2 with h2 | ⟨hf2, h2⟩
        · rw [hf1] at h2
          rw [strLt_irrefl] at h2
          exact Bool.noConfusion h2
        · exact Prod.ext he1 (Prod.ext hf1 (strLe_antisymm _ _ h1 h2))

theorem isort_tripleLe_eq_of_perm (e1 e2 : List (String × String × String))
    (hperm : List.Perm e1 e2) : isort tripleLe e1 = isort tripleLe e2 :=
  eq_of_perm_of_pairwise _ (fun a b => tripleLe_antisymm a b) _ _
    (isort_pairwise _ tripleLe_total tripleLe_trans e1)
    (isort_pairwise _ tripleLe_total tripleLe_trans e2)
    ((isort_perm _ e1).trans (hperm.trans (isort_perm _ e2).symm))

theorem pairwise_strict_keys {α : Type} (l : List (String × α))
    (hp : l.Pairwise (fun x y => entryLe x y = true))
    (hnd : (l.map Prod.fst).Nodup) :
    l.Pairwise (fun x y => strLt x.1 y.1 = true) := by
  have hne : l.Pairwise (fun x y => x.1 ≠ y.1) := List.pairwise_map.mp hnd
  exact (hp.and hne).imp (fun h => (strLt_iff _ _).mpr ⟨h.1, h.2⟩)

theorem sortEntries_eq_of_perm {α : Type} (l1 l2 : List (String × α))
    (hperm : List.Perm l1 l2) (hnd : (l1.map Prod.fst).Nodup) :
    sortEntries l1 = sortEntries l2 := by
  have htot : ∀ a b : String × α, entryLe a b = true ∨ entryLe b a = true :=
    fun a b => strLe_total a.1 b.1
  have htr : ∀ a b c : String × α, entryLe a b = true → entryLe b c = true →
      entryLe a c = true := fun a b c => strLe_trans a.1 b.1 c.1
  have hperm1 : List.Perm (isort entryLe l1) l1 := isort_perm _ _
  have hperm2 : List.Perm (isort entryLe l2) l2 := isort_perm _ _
  have hnd2 : (l2.map Prod.fst).Nodup := (hperm.map Prod.fst).nodup_iff.mp hnd
  have hnd1s : ((isort entryLe l1).map Prod.fst).Nodup :=
    (hperm1.map Prod.fst).nodup_iff.mpr hnd
  have hnd2s : ((isort entryLe l2).map Prod.fst).Nodup :=
    (hperm2.map Prod.fst).nodup_iff.mpr hnd2
  refine eq_of_perm_of_pairwise (fun x y => strLt x.1 y.1 = true) ?_ _ _
    (pairwise_strict_keys _ (isort_pairwise entryLe htot htr l1) hnd1s)
    (pairwise_strict_keys _ (isort_pairwise entryLe htot htr l2) hnd2s)
    (hperm1.trans (hperm.trans hperm2.symm))
  intro a b hab hba
  exact absurd
    (strLe_antisymm _ _ ((strLt_iff _ _).mp hab).1 ((strLt_iff _ _).mp hba).1)
    ((strLt_iff _ _).mp hab).2

theorem map_fst_pair {α β γ : Type} (l : List (α × β)) (f : α × β → γ) :
    (l.map (fun p => (p.1, f p))).map Prod.fst = l.map Prod.fst := by
  induction l with
  | nil => rfl
  | cons p t ih => simp [ih]

theorem jsonishEntries_eq_map (l : List (String × PVal)) :
    jsonishEntries l = l.map (fun p => (p.1, jsonish p.2)) := by
  induction l with
  | nil => rfl
  | cons p t ih =>
    obtain ⟨k, v⟩ := p
    simp only [jsonishEntries, List.map_cons, ih]

theorem normProps_perm (p1 p2 : List (String × PVal))
    (hperm : List.Perm p1 p2) (hnd : (p1.map Prod.fst).Nodup) :
    normProps p1 = normProps p2 := by
  unfold normProps
  rw [jsonishEntries_eq_map, jsonishEntries_eq_map]
  refine sortEntries_eq_of_perm _ _ (hperm.map _) ?_
  rw [map_fst_pair]
  exact hnd

theorem map_norm_of_forall2 (l1 l2 : List (String × PNode))
    (hf : List.Forall₂ (fun p q => p.1 = q.1 ∧ p.2.ntype = q.2.ntype ∧
      List.Perm p.2.props q.2.props ∧ (p.2.props.map Prod.fst).Nodup) l1 l2) :
    l1.map (fun p => (p.1, p.2.ntype, normProps p.2.props)) =
      l2.map (fun p => (p.1, p.2.ntype, normProps p.2.props)) := by
  induction hf with
  | nil => rfl
  | cons hpq hrest ih =>
    obtain ⟨h1, h2, h3, h4⟩ := hpq
    simp only [List.map_cons, ih, List.cons.injEq, and_true]
    rw [h1, h2, normProps_perm _ _ h3 h4]

theorem map_clone_id (ns : List (String × PNode)) :
    ns.map (fun p => (p.1, PNode.mk p.2.ntype p.2.props)) = ns := by
  induction ns with
  | nil => rfl
  | cons p t ih =>
    obtain ⟨k, ⟨ty, pr⟩⟩ := p
    simp only [List.map_cons, ih]

theorem clone_eq (g : Graph) : g.clone = g := by
  obtain ⟨ns, es⟩ := g
  show Graph.mk (ns.map (fun p => (p.1, ⟨p.2.ntype, p.2.props⟩))) es =
    Graph.mk ns es
  rw [map_clone_id]

/-- C6 (amended): the canonical signature is deterministic and
order-insensitive — it is unchanged by `clone`, by the insertion order of
the node table (for duplicate-free ids), by the order of the edge list,
and by the key order inside each node's property map and inside nested
mappings (normalized by `_jsonish`); and, up to collisions of the digest
(assumed injective), two graphs share a signature exactly when they have
the same canonical payload, which forces the same multiset of edge
triples and the same multiset of `(id, type, normalized props)` node
entries.  The original claim's final clause fails: a property value
change between a tuple and the list with the same elements does NOT
change the signature, because `_jsonish` collapses both to a JSON array
(see the counterexample). -/
theorem signature_determinism {β : Type} (hash : Payload → β) :
    (∀ g : Graph, Graph.signature hash g.clone = Graph.signature hash g) ∧
    (∀ g1 g2 : Graph, List.Perm g1.nodes g2.nodes →
      (g1.nodes.map Prod.fst).Nodup → g1.edges = g2.edges →
      Graph.signature hash g1 = Graph.signature hash g2) ∧
    (∀ g1 g2 : Graph, g1.nodes = g2.nodes → List.Perm g1.edges g2.edges →
      Graph.signature hash g1 = Graph.signature hash g2) ∧
    (∀ g1 g2 : Graph, g1.edges = g2.edges →
      List.Forall₂ (fun p q => p.1 = q.1 ∧ p.2.ntype = q.2.ntype ∧
        List.Perm p.2.props q.2.props ∧ (p.2.props.map Prod.fst).Nodup)
        g1.nodes g2.nodes →
      Graph.signature hash g1 = Graph.signature hash g2) ∧
    (∀ es1 es2 : List (String × PVal), List.Perm es1 es2 →
      (es1.map Prod.fst).Nodup →
      jsonish (.pdict es1) = jsonish (.pdict es2)) ∧
    (Function.Injective hash → ∀ g1 g2 : Graph,
      (Graph.signature hash g1 = Graph.signature hash g2 ↔
        canonical_payload g1 = canonical_payload g2)) ∧
    (Function.Injective hash → ∀ g1 g2 : Graph,
      Graph.signature hash g1 = Graph.signature hash g2 →
      List.Perm g1.edges g2.edges ∧
      List.Perm (normNodeEntries g1) (normNodeEntries g2)) := by
  refine ⟨?_, ?_, ?_, ?_, ?_, ?_, ?_⟩
  · intro g
    rw [clone_eq]
  · intro g1 g2 hp hnd he
    unfold Graph.signature canonical_payload
    rw [he]
    have hperm : List.Perm (normNodeEntries g1) (normNodeEntries g2) := by
      unfold normNodeEntries
      exact hp.map (fun p => (p.1, p.2.ntype, normProps p.2.props))
    have hnd1 : ((normNodeEntries g1).map Prod.fst).Nodup := by
      unfold normNodeEntries
      rw [map_fst_pair]
      exact hnd
    have hn : sortEntries (normNodeEntries g1) =
        sortEntries (normNodeEntries g2) :=
      sortEntries_eq_of_perm _ _ hperm hnd1
    show hash ⟨sortEntries (normNodeEntries g1), isort tripleLe g2.edges⟩ =
      hash ⟨sortEntries (normNodeEntries g2), isort tripleLe g2.edges⟩
    rw [hn]
  · intro g1 g2 hn he
    unfold Graph.signature canonical_payload normNodeEntries
    rw [hn, isort_tripleLe_eq_of_perm g1.edges g2.edges he]
  · intro g1 g2 he hf
    unfold Graph.signature canonical_payload
    rw [he]
    have hn : normNodeEntries g1 = normNodeEntries g2 :=
      map_norm_of_forall2 g1.nodes g2.nodes hf
    rw [hn]
  · intro es1 es2 hperm hnd
    show PVal.pdict (normProps es1) = PVal.pdict (normProps es2)
    rw [normProps_perm es1 es2 hperm hnd]
  · intro hinj g1 g2
    constructor
    · intro h
      unfold Graph.signature at h
      exact hinj h
    · intro h
      unfold Graph.signature
      rw [h]
  · intro hinj g1 g2 h
    have hp : canonical_payload g1 = canonical_payload g2 := by
      unfold Graph.signature at h
      exact hinj h
    have he : isort tripleLe g1.edges = isort tripleLe g2.edges :=
      congrArg Payload.e hp
    have hn : isort entryLe (normNodeEntries g1) =
        isort entryLe (normNodeEntries g2) := congrArg Payload.n hp
    constructor
    · have p1 := isort_perm tripleLe g1.edges
      have p2' : List.Perm (isort tripleLe g1.edges) g2.edges := by
        rw [he]
        exact isort_perm tripleLe g2.edges
      exact p1.symm.trans p2'
    · have p1 := isort_perm entryLe (normNodeEntries g1)
      have p2' : List.Perm (isort entryLe (normNodeEntries g1))
          (normNodeEntries g2) := by
        rw [hn]
        exact isort_perm entryLe (normNodeEntries g2)
      exact p1.symm.trans p2'

/-- Two graphs identical except that node `a`'s property `p` holds the
tuple `("x",)` in the first and the list `["x"]` in the second. -/
def cexSigG1 : Graph :=
  ⟨[("a", ⟨"T", [("p", .ptuple [.pstr "x"])]⟩)], []⟩

def cexSigG2 : Graph :=
  ⟨[("a", ⟨"T", [("p", .plist [.pstr "x"])]⟩)], []⟩

/-- C6 counterexample: changing a property value from a tuple to the list
with the same elements changes the graph but not the signature —
`_jsonish` sends both to the same JSON array, so the canonical payloads
coincide and every digest maps them to the same signature, refuting the
claim that the signature changes whenever any property value changes. -/
theorem signature_value_change_counterexample :
    cexSigG1.nodes ≠ cexSigG2.nodes ∧
    canonical_payload cexSigG1 = canonical_payload cexSigG2 ∧
    ∀ {β : Type} (hash : Payload → β),
      Graph.signature hash cexSigG1 = Graph.signature hash cexSigG2 := by
  refine ⟨by decide, by decide, ?_⟩
  intro β hash
  show hash (canonical_payload cexSigG1) = hash (canonical_payload cexSigG2)
  exact congrArg hash (by decide)

def wSigG1 : Graph := ⟨[("a", ⟨"T", []⟩)], [("a", "t", "b"), ("a", "s", "c")]⟩

def wSigG2 : Graph := ⟨[("a", ⟨"T", []⟩)], [("a", "s", "c"), ("a", "t", "b")]⟩

/-- Witness for C6: on two concrete graphs that differ only in edge-list
order, the theorem's edge-order conjunct applies and yields equal
signatures under the identity digest. -/
theorem signature_determinism_witness :
    wSigG1.nodes = wSigG2.nodes ∧ List.Perm wSigG1.edges wSigG2.edges ∧
    @Graph.signature Payload (fun p => p) wSigG1 =
      @Graph.signature Payload (fun p => p) wSigG2 :=
  ⟨rfl, by decide,
    (signature_determinism (fun p => p)).2.2.1 wSigG1 wSigG2 rfl (by decide)⟩

end Gresiop
